import Mathlib

/-!
Verification of the threshold-crossing alert engine in
cluster_email_alerts.py (Qumulo/cluster-email-alerts).

The evaluation pipeline of the script is shallowly embedded here:

* Python dicts become association lists over String keys, with the
  first-matching-key lookup, in-place-or-append assignment and key deletion
  that Python dict operations perform (the script only ever uses dicts with
  unique keys; theorems that need this assume key lists without duplicates).
* Python numbers flowing through the threshold logic become rationals.
  The call round(x, 2) becomes rounding of the exact rational value to two
  decimal places with ties to even, which is what CPython's round performs
  on the exact value of its float argument.  Division by zero, which raises
  ZeroDivisionError in the source, is modelled by an Option-valued result.
* Logging is dropped except for log.warning in get_alerting_quotas, whose
  emitted messages are returned as a list of strings so that the warning
  behaviour for zero thresholds can be stated.
* The SMTP and REST collaborators are outside the embedded core: metric
  snapshots (quota records, capacity numbers, relationship statuses) are
  inputs, and a notification is the fact that a target/rule reaches the
  notify output of a run.
-/

namespace ClusterEmailAlerts

/-! ### Association lists modelling Python dicts -/

/-- Lookup of a key in an association list, first match wins, as for a
Python dict access with unique keys. -/
def alookup {α : Type} (k : String) : List (String × α) → Option α
  | [] => none
  | (k', v) :: rest => if k' = k then some v else alookup k rest

/-- Membership test for a key, modelling the Python `in` operator on dicts. -/
def hasKey {α : Type} (k : String) (m : List (String × α)) : Bool :=
  (alookup k m).isSome

/-- Assignment m[k] = v on a Python dict: replace the binding in place when
the key is present, append it otherwise. -/
def dset {α : Type} (k : String) (v : α) : List (String × α) → List (String × α)
  | [] => [(k, v)]
  | (k', v') :: rest => if k' = k then (k, v) :: rest else (k', v') :: dset k v rest

/-- Deletion del m[k] on a Python dict. -/
def ddel {α : Type} (k : String) : List (String × α) → List (String × α)
  | [] => []
  | (k', v) :: rest => if k' = k then ddel k rest else (k', v) :: ddel k rest

/-- Two-level lookup m[p][r] on a dict of dicts. -/
def alookup2 {α : Type} (m : List (String × List (String × α))) (p r : String) :
    Option α :=
  (alookup p m).bind (fun inner => alookup r inner)

/-- Two-level assignment m[p][r] = v on a dict of dicts (creating the inner
dict when absent, which the script guarantees before such assignments). -/
def dset2 {α : Type} (p r : String) (v : α)
    (m : List (String × List (String × α))) : List (String × List (String × α)) :=
  dset p (dset r v ((alookup p m).getD [])) m

/-- Keys of an association list. -/
def keysOf {α : Type} (m : List (String × α)) : List String := m.map (fun e => e.1)

/-- The key list has no duplicates; Python dicts always satisfy this. -/
def NodupKeys {α : Type} (m : List (String × α)) : Prop := (keysOf m).Nodup

instance {α : Type} (m : List (String × α)) : Decidable (NodupKeys m) := by
  unfold NodupKeys; infer_instance

/-! ### Basic lemmas on the dict operations -/

theorem alookup_dset_self {α : Type} (k : String) (v : α) (m : List (String × α)) :
    alookup k (dset k v m) = some v := by
  induction m with
  | nil => simp [dset, alookup]
  | cons e rest ih =>
    obtain ⟨k', v'⟩ := e
    by_cases h : k' = k <;> simp [dset, alookup, h, ih]

theorem alookup_dset_ne {α : Type} {k q : String} (v : α) (m : List (String × α))
    (h : q ≠ k) : alookup q (dset k v m) = alookup q m := by
  have hkq : ¬ k = q := fun hh => h hh.symm
  induction m with
  | nil => simp [dset, alookup, hkq]
  | cons e rest ih =>
    obtain ⟨k', v'⟩ := e
    by_cases hk : k' = k
    · subst hk
      simp [dset, alookup, hkq, ih]
    · by_cases hq : k' = q <;> simp [dset, alookup, hk, hq, h, ih]

theorem alookup_ddel_self {α : Type} (k : String) (m : List (String × α)) :
    alookup k (ddel k m) = none := by
  induction m with
  | nil => simp [ddel, alookup]
  | cons e rest ih =>
    obtain ⟨k', v'⟩ := e
    by_cases h : k' = k <;> simp [ddel, alookup, h, ih]

theorem alookup_ddel_ne {α : Type} {k q : String} (m : List (String × α))
    (h : q ≠ k) : alookup q (ddel k m) = alookup q m := by
  have hkq : ¬ k = q := fun hh => h hh.symm
  induction m with
  | nil => simp [ddel, alookup]
  | cons e rest ih =>
    obtain ⟨k', v'⟩ := e
    by_cases hk : k' = k
    · subst hk
      simp [ddel, alookup, hkq, ih]
    · by_cases hq : k' = q <;> simp [ddel, alookup, hk, hq, h, ih]

theorem alookup_eq_some_of_mem {α : Type} {k : String} {v : α}
    {m : List (String × α)} (hnd : NodupKeys m) (hm : (k, v) ∈ m) :
    alookup k m = some v := by
  induction m with
  | nil => simp at hm
  | cons e rest ih =>
    obtain ⟨k', v'⟩ := e
    unfold NodupKeys keysOf at hnd
    simp only [List.map_cons, List.nodup_cons] at hnd
    rcases List.mem_cons.mp hm with h | h
    · have hk : k = k' := congrArg Prod.fst h
      have hv : v = v' := congrArg Prod.snd h
      subst hk
      subst hv
      simp [alookup]
    · have hne : k' ≠ k := by
        intro hkk
        subst hkk
        exact hnd.1 (List.mem_map.mpr ⟨(k', v), h, rfl⟩)
      simpa [alookup, hne] using ih (by exact hnd.2) h

theorem mem_of_alookup_eq_some {α : Type} {k : String} {v : α}
    {m : List (String × α)} (h : alookup k m = some v) : (k, v) ∈ m := by
  induction m with
  | nil => simp [alookup] at h
  | cons e rest ih =>
    obtain ⟨k', v'⟩ := e
    by_cases hk : k' = k
    · subst hk
      simp only [alookup, if_pos (Eq.refl k'), Option.some.injEq, eq_self_iff_true,
        if_true] at h
      subst h
      exact List.mem_cons_self _ _
    · simp only [alookup, if_neg hk] at h
      exact List.mem_cons_of_mem _ (ih h)

theorem hasKey_dset {α : Type} (k q : String) (v : α) (m : List (String × α)) :
    hasKey q (dset k v m) = (hasKey q m || decide (q = k)) := by
  by_cases h : q = k
  · subst h; simp [hasKey, alookup_dset_self]
  · simp [hasKey, alookup_dset_ne v m h, h]

theorem hasKey_ddel {α : Type} (k q : String) (m : List (String × α)) :
    hasKey q (ddel k m) = (hasKey q m && decide (q ≠ k)) := by
  by_cases h : q = k
  · subst h; simp [hasKey, alookup_ddel_self]
  · simp [hasKey, alookup_ddel_ne m h, h]

theorem dset_of_alookup_eq {α : Type} {k : String} {v : α} {m : List (String × α)}
    (h : alookup k m = some v) : dset k v m = m := by
  induction m with
  | nil => simp [alookup] at h
  | cons e rest ih =>
    obtain ⟨k', v'⟩ := e
    by_cases hk : k' = k
    · subst hk
      simp only [alookup, if_pos (Eq.refl k'), Option.some.injEq, eq_self_iff_true,
        if_true] at h
      subst h
      simp [dset]
    · simp only [alookup, if_neg hk] at h
      simp [dset, hk, ih h]

theorem alookup2_dset2_self {α : Type} (p r : String) (v : α)
    (m : List (String × List (String × α))) :
    alookup2 (dset2 p r v m) p r = some v := by
  unfold alookup2 dset2
  rw [alookup_dset_self]
  simp [alookup_dset_self]

theorem alookup2_dset2_ne {α : Type} (p r p' r' : String) (v : α)
    (m : List (String × List (String × α))) (h : p' ≠ p ∨ r' ≠ r) :
    alookup2 (dset2 p r v m) p' r' = alookup2 m p' r' := by
  unfold alookup2 dset2
  by_cases hp : p' = p
  · subst hp
    rcases h with h | h
    · exact absurd rfl h
    · rw [alookup_dset_self]
      cases hm : alookup p' m with
      | none =>
        have hrr : ¬ r = r' := fun hh => h hh.symm
        simp [hm, alookup_dset_ne _ _ h, alookup, hrr]
      | some inner => simp [hm, alookup_dset_ne _ _ h]
  · rw [alookup_dset_ne _ _ hp]

/-! ### Python rounding and percentage computation -/

/-- Rounding of a rational to the nearest integer with ties to even, the
behaviour of CPython's round on the exact value of its argument. -/
def roundHalfEven (x : ℚ) : ℤ :=
  let f := ⌊x⌋
  if x - f < 1 / 2 then f
  else if 1 / 2 < x - f then f + 1
  else if f % 2 = 0 then f else f + 1

/-- Python round(x, 2): round to two decimal places, ties to even. -/
def pyRound2 (x : ℚ) : ℚ := ((roundHalfEven (x * 100) : ℤ) : ℚ) / 100

/-- Per-quota usage percentage, cluster_email_alerts.py lines 290-292:
round((float(capacity_usage) / float(limit)) * 100, 2).  A zero limit raises
ZeroDivisionError in the source, modelled as none. -/
def pct_used (usage limit : ℚ) : Option ℚ :=
  if limit = 0 then none else some (pyRound2 (usage / limit * 100))

/-- Embedding of cluster_get_fs_usage (lines 465-473) given the two fields
of the read_fs_stats response.  Returns total capacity, used capacity and
the used percentage; a zero total raises ZeroDivisionError, modelled as
none. -/
def cluster_get_fs_usage (total_size_bytes free_size_bytes : ℤ) :
    Option (ℤ × ℤ × ℚ) :=
  let used := total_size_bytes - free_size_bytes
  if total_size_bytes = 0 then none
  else some (total_size_bytes, used,
    pyRound2 ((used : ℚ) / (total_size_bytes : ℚ) * 100))

/-! ### humanize_bytes (lines 86-94) -/

/-- Python's abs(), written with an explicit sign test so that concrete
inputs evaluate; equal to the absolute value. -/
def pyAbs (q : ℚ) : ℚ := if q < 0 then -q else q

theorem pyAbs_eq_abs (q : ℚ) : pyAbs q = |q| := by
  unfold pyAbs
  by_cases h : q < 0
  · rw [if_pos h, abs_of_neg h]
  · rw [if_neg h, abs_of_nonneg (le_of_not_lt h)]

/-- Formatting of a rational with one decimal digit, the effect of the
Python format string %3.1f for the values this script feeds it (the
minimum-width padding of %3.1f never triggers, since the shortest rendering
0.0 already has three characters).  The printf rounding on the exact value
is to nearest with ties to even. -/
def fmtOneDecimal (q : ℚ) : String :=
  let n := roundHalfEven (q * 10)
  if n < 0 then
    "-" ++ toString (n.natAbs / 10) ++ "." ++ toString (n.natAbs % 10)
  else
    toString (n.toNat / 10) ++ "." ++ toString (n.toNat % 10)

/-- Loop of humanize_bytes over the unit prefixes. -/
def humanizeGo (suffix : String) : ℚ → List String → String
  | num, [] => fmtOneDecimal num ++ "Y" ++ suffix
  | num, unit :: rest =>
    if pyAbs num < 1000 then fmtOneDecimal num ++ unit ++ suffix
    else humanizeGo suffix (num / 1000) rest

/-- Embedding of humanize_bytes: scale a byte count by powers of 1000 and
render with one decimal digit and a unit prefix. -/
def humanize_bytes (num : ℚ) (suffix : String := "B") : String :=
  humanizeGo suffix num ["", "K", "M", "G", "T", "P", "E", "Z"]

/-! ### The threshold loops -/

/-- Loop of get_alerting_quotas lines 300-306 without the logging: starting
from the sentinel 0, overwrite alert_threshold with every threshold the
usage percentage strictly exceeds, so the last exceeded threshold in list
order wins. -/
def alertThresholdFold (pct : ℚ) (thresholds : List ℚ) : ℚ :=
  thresholds.foldl (fun acc t => if pct > t then t else acc) 0

/-- Loop of cluster_capacity_process_rule lines 489-491: starting from
None, overwrite exceeded_threshold with every threshold the usage strictly
exceeds. -/
def exceededThresholdFold (pct : ℚ) (thresholds : List ℚ) : Option ℚ :=
  thresholds.foldl (fun acc t => if pct > t then some t else acc) none

/-- Specification-side definition, from the spec's words: the maximum
threshold t of the configured set with usage > t, or none when no
threshold qualifies. -/
def specMaxExceeded (pct : ℚ) (thresholds : List ℚ) : Option ℚ :=
  thresholds.foldl
    (fun acc t =>
      if t < pct then
        some (match acc with
          | none => t
          | some m => max m t)
      else acc)
    none

/-- Python truthiness of the Option-valued exceeded_threshold: None and the
number 0 are falsy. -/
def truthyOpt (o : Option ℚ) : Bool :=
  match o with
  | none => false
  | some t => decide (t ≠ 0)

/-! ### Data model for the quota family -/

/-- Configured quota rule fields consumed by the evaluator (the thresholds)
together with the notification fields the script carries along verbatim. -/
structure QuotaRule where
  thresholds : List ℚ
  mail_to : List String
  custom_msg : String
  include_capacity : Bool
deriving Repr, DecidableEq

/-- One quota after process_quotas_and_rules: its metric fields merged with
its applicable rules. -/
structure QuotaStatus where
  capacity_usage : ℤ
  limit : ℤ
  rules : List (String × QuotaRule)
deriving Repr, DecidableEq

/-- The rule_info dict that get_alerting_quotas builds per alerting rule,
lines 313-319: the rule fields spread together with alert_threshold,
pct_used, quota_used and quota_limit. -/
structure AlertInfo where
  thresholds : List ℚ
  mail_to : List String
  custom_msg : String
  include_capacity : Bool
  alert_threshold : ℚ
  pct_used : ℚ
  quota_used : String
  quota_limit : String
deriving Repr, DecidableEq

/-- History namespace history['quotas']: path to rule name to stored
rule_info. -/
abbrev HistQ := List (String × List (String × AlertInfo))

/-- Alert output of get_alerting_quotas: path to rule name to rule_info. -/
abbrev AlertQuotas := List (String × List (String × AlertInfo))

/-- Per-rule body of the get_alerting_quotas loop, lines 295-319: emit one
warning per zero threshold, compute the highest (last) exceeded threshold
and, when it is positive, the alert rule_info. -/
def checkQuotaRule (pct : ℚ) (quota_used quota_limit : String)
    (rname : String) (rule : QuotaRule) : List String × Option AlertInfo :=
  let warnings := rule.thresholds.filterMap
    (fun t => if t = 0 then some ("Quota rule " ++ rname ++ " has a threshold of 0.")
      else none)
  let athr := alertThresholdFold pct rule.thresholds
  if 0 < athr then
    (warnings,
      some ⟨rule.thresholds, rule.mail_to, rule.custom_msg, rule.include_capacity,
        athr, pct, quota_used, quota_limit⟩)
  else (warnings, none)

/-- Rules loop of get_alerting_quotas for one quota, collecting warnings and
the alert_rules dict. -/
def checkQuotaRules (pct : ℚ) (quota_used quota_limit : String) :
    List (String × QuotaRule) → List String × List (String × AlertInfo)
  | [] => ([], [])
  | (rname, rule) :: rest =>
    let wa := checkQuotaRule pct quota_used quota_limit rname rule
    let ws := checkQuotaRules pct quota_used quota_limit rest
    (wa.1 ++ ws.1,
      match wa.2 with
      | some info => (rname, info) :: ws.2
      | none => ws.2)

/-- Embedding of get_alerting_quotas (lines 279-324).  Returns the warning
messages logged and the alert_quotas dict; none models the
ZeroDivisionError a zero quota limit raises. -/
def get_alerting_quotas : List (String × QuotaStatus) →
    Option (List String × AlertQuotas)
  | [] => some ([], [])
  | (path, q) :: rest =>
    if (q.limit : ℚ) = 0 then none
    else
      let pct := pyRound2 ((q.capacity_usage : ℚ) / (q.limit : ℚ) * 100)
      let quota_used := humanize_bytes (q.capacity_usage : ℚ)
      let quota_limit := humanize_bytes (q.limit : ℚ)
      let wa := checkQuotaRules pct quota_used quota_limit q.rules
      match get_alerting_quotas rest with
      | none => none
      | some (ws, aqs) =>
        some (wa.1 ++ ws, if wa.2.isEmpty then aqs else (path, wa.2) :: aqs)

/-- Inner rules loop of process_quotas_with_history, lines 348-372, for one
existing quota path: alert on new rules and on strictly escalated
thresholds, refresh the history entry in every case. -/
def pqwhRulesGo (path : String) :
    List (String × AlertInfo) → AlertQuotas × HistQ → AlertQuotas × HistQ
  | [], st => st
  | (rname, rinfo) :: rest, (notify, hist) =>
    match (alookup path hist).bind (fun inner => alookup rname inner) with
    | none =>
      pqwhRulesGo path rest
        (dset2 path rname rinfo notify, dset2 path rname rinfo hist)
    | some old =>
      if old.alert_threshold < rinfo.alert_threshold then
        pqwhRulesGo path rest
          (dset2 path rname rinfo notify, dset2 path rname rinfo hist)
      else
        pqwhRulesGo path rest (notify, dset2 path rname rinfo hist)

/-- Outer loop of process_quotas_with_history, lines 336-372: new quota
paths alert wholesale, existing paths are compared rule by rule. -/
def pqwhGo : List (String × List (String × AlertInfo)) → AlertQuotas × HistQ →
    AlertQuotas × HistQ
  | [], st => st
  | (path, arules) :: rest, (notify, hist) =>
    if hasKey path hist then
      let notify' := if hasKey path notify then notify else dset path [] notify
      pqwhGo rest (pqwhRulesGo path arules (notify', hist))
    else
      pqwhGo rest (dset path arules notify, dset path arules hist)

/-- First removal list of the cleanup pass, lines 378-381: quota paths in
the history that are no longer alerting. -/
def quotasToRemove (aq : AlertQuotas) (hist : HistQ) : List String :=
  (hist.filter (fun e => ¬ hasKey e.1 aq)).map (fun e => e.1)

/-- Second removal list of the cleanup pass, lines 382-384: for history
paths still alerting, the rules of the path that are no longer alerting. -/
def rulesToRemove (aq : AlertQuotas) (hist : HistQ) : List (String × String) :=
  hist.flatMap
    (fun e =>
      if hasKey e.1 aq then
        (e.2.filter (fun r => ¬ hasKey r.1 ((alookup e.1 aq).getD []))).map
          (fun r => (e.1, r.1))
      else [])

/-- Cleanup pass of process_quotas_with_history, lines 374-398: collect the
quota paths no longer alerting and, for still-alerting paths, the rules no
longer alerting, then delete them from the history. -/
def pqwhCleanup (aq : AlertQuotas) (hist : HistQ) : HistQ :=
  let h1 := (quotasToRemove aq hist).foldl (fun h q => ddel q h) hist
  (rulesToRemove aq hist).foldl
    (fun h pr => dset pr.1 (ddel pr.2 ((alookup pr.1 h).getD [])) h) h1

/-- Embedding of process_quotas_with_history (lines 327-400): returns the
notify_quotas dict and the updated history['quotas'] namespace. -/
def process_quotas_with_history (aq : AlertQuotas) (hist : HistQ) :
    AlertQuotas × HistQ :=
  let st := pqwhGo aq ([], hist)
  (st.1, pqwhCleanup aq st.2)

/-- Number of notifications a notify_quotas dict produces: the alert loop
of quota_capacity_check (lines 222-230) sends one email per inner rule
entry, so paths mapped to an empty rules dict send nothing. -/
def notifyCount (n : AlertQuotas) : Nat := (n.map (fun e => e.2.length)).sum

/-! ### Data model for the capacity family -/

/-- Configured capacity rule. -/
structure CapRule where
  thresholds : List ℚ
  mail_to : List String
  custom_msg : String
deriving Repr, DecidableEq

/-- History namespace history['capacity']: rule name to the stored
alert_threshold (the script stores the one-field dict
\x7b'alert_threshold': t\x7d, modelled by t itself). -/
abbrev HistC := List (String × ℚ)

/-- Embedding of cluster_capacity_process_rule (lines 476-516).  Returns
send_alert, exceeded_threshold and the updated history['capacity']
namespace.  The Python truth test `if exceeded_threshold:` makes both None
and an exceeded threshold of value 0 take the cleanup branch. -/
def cluster_capacity_process_rule (rule_name : String) (rule_info : CapRule)
    (used_pct : ℚ) (hist : HistC) : Bool × Option ℚ × HistC :=
  let exceeded := exceededThresholdFold used_pct rule_info.thresholds
  match exceeded with
  | some t =>
    if t ≠ 0 then
      match alookup rule_name hist with
      | some old =>
        if old < t then (true, some t, dset rule_name t hist)
        else (false, some t, hist)
      | none => (true, some t, dset rule_name t hist)
    else (false, some t, ddel rule_name hist)
  | none => (false, none, ddel rule_name hist)

/-- Rule loop of cluster_capacity_check (lines 453-462): process every
configured capacity rule in order, collecting the rule names that send an
alert and threading the history through. -/
def cluster_capacity_check_core : List (String × CapRule) → ℚ → HistC →
    List String × HistC
  | [], _, hist => ([], hist)
  | (rn, ri) :: rest, used_pct, hist =>
    let res := cluster_capacity_process_rule rn ri used_pct hist
    let tail := cluster_capacity_check_core rest used_pct res.2.2
    (if res.1 then rn :: tail.1 else tail.1, tail.2)

/-! ### Data model for the replication family -/

/-- Configured replication rule. -/
structure RepRule where
  mail_to : List String
  custom_msg : String
deriving Repr, DecidableEq

/-- One replication relationship status record; error_from_last_job is the
error text, empty when the last job had no error (the script applies Python
truthiness to this field). -/
structure Relationship where
  source_cluster_name : String
  source_root_path : String
  target_cluster_name : String
  target_root_path : String
  recovery_point : String
  error_from_last_job : String
deriving Repr, DecidableEq

/-- History namespace history['replication']: rule name to the stored
rule_info. -/
abbrev HistR := List (String × RepRule)

/-- Aggregation of erroring relationships in replication_status_check,
lines 578-586: source statuses with a truthy error followed by target
statuses with a truthy error. -/
def replication_err_set (src tgt : List Relationship) : List Relationship :=
  src.filter (fun r => r.error_from_last_job ≠ "") ++
    tgt.filter (fun r => r.error_from_last_job ≠ "")

/-- Embedding of replication_process_rules (lines 598-626): alert exactly
when some relationship errors and the rule has no history entry; clear the
entry when no relationship errors. -/
def replication_process_rules (rule_name : String) (rule_info : RepRule)
    (err_relationships : List Relationship) (hist : HistR) : Bool × HistR :=
  if ¬ err_relationships.isEmpty then
    match alookup rule_name hist with
    | none => (true, dset rule_name rule_info hist)
    | some _ => (false, hist)
  else (false, ddel rule_name hist)

/-- Rule loop of replication_status_check (lines 588-595): process every
configured replication rule, collecting the rule names that alert. -/
def replication_check_core : List (String × RepRule) → List Relationship →
    HistR → List String × HistR
  | [], _, hist => ([], hist)
  | (rn, ri) :: rest, errs, hist =>
    let res := replication_process_rules rn ri errs hist
    let tail := replication_check_core rest errs res.2
    (if res.1 then rn :: tail.1 else tail.1, tail.2)

end ClusterEmailAlerts

namespace ClusterEmailAlerts

/-! ### Facts about the threshold folds (claims C1, C6) -/

theorem foldl_exceeded_some (pct : ℚ) (ts : List ℚ) (a : ℚ) :
    ts.foldl (fun acc t => if pct > t then some t else acc) (some a) =
      some (ts.foldl (fun acc t => if pct > t then t else acc) a) := by
  induction ts generalizing a with
  | nil => rfl
  | cons t rest ih =>
    by_cases h : pct > t <;> simp [List.foldl_cons, h, ih]

theorem alertThresholdFold_eq (pct : ℚ) (ts : List ℚ) :
    alertThresholdFold pct ts = (exceededThresholdFold pct ts).getD 0 := by
  unfold alertThresholdFold exceededThresholdFold
  induction ts with
  | nil => rfl
  | cons t rest ih =>
    by_cases h : pct > t
    · simp [List.foldl_cons, h, foldl_exceeded_some]
    · simpa [List.foldl_cons, h] using ih

theorem specMaxExceeded_mem (pct : ℚ) (ts : List ℚ) {m : ℚ}
    (h : specMaxExceeded pct ts = some m) : m ∈ ts := by
  unfold specMaxExceeded at h
  suffices hgen : ∀ (l : List ℚ) (acc : Option ℚ) (m : ℚ),
      l.foldl (fun acc t => if t < pct then
        some (match acc with | none => t | some m' => max m' t) else acc) acc = some m →
      acc = some m ∨ m ∈ l by
    rcases hgen ts none m h with hc | hc
    · exact absurd hc (by simp)
    · exact hc
  intro l
  induction l with
  | nil => intro acc m h; exact Or.inl h
  | cons t rest ih =>
    intro acc m h
    simp only [List.foldl_cons] at h
    by_cases ht : t < pct
    · rw [if_pos ht] at h
      rcases ih _ _ h with hc | hc
      · cases acc with
        | none =>
          simp only [Option.some.injEq] at hc
          exact Or.inr (by simp [hc.symm])
        | some a =>
          simp only [Option.some.injEq] at hc
          rcases max_choice a t with hm | hm
          · exact Or.inl (by rw [← hc, hm])
          · exact Or.inr (by simp [← hc, hm])
      · exact Or.inr (List.mem_cons_of_mem _ hc)
    · rw [if_neg ht] at h
      rcases ih _ _ h with hc | hc
      · exact Or.inl hc
      · exact Or.inr (List.mem_cons_of_mem _ hc)

theorem exceededThresholdFold_sorted (pct : ℚ) (ts : List ℚ)
    (hs : ts.Sorted (fun a b => a ≤ b)) :
    exceededThresholdFold pct ts = specMaxExceeded pct ts := by
  induction ts using List.reverseRecOn with
  | nil => rfl
  | append_singleton rest t ih =>
    obtain ⟨hrest, -, hle⟩ := List.pairwise_append.mp hs
    unfold exceededThresholdFold specMaxExceeded
    rw [List.foldl_append, List.foldl_append]
    simp only [List.foldl_cons, List.foldl_nil]
    by_cases h : pct > t
    · rw [if_pos h, if_pos h]
      cases hspec : specMaxExceeded pct rest with
      | none =>
        unfold specMaxExceeded at hspec
        simp [hspec]
      | some m =>
        have hm : m ≤ t := hle m (specMaxExceeded_mem pct rest hspec) t (by simp)
        unfold specMaxExceeded at hspec
        simp [hspec, max_eq_right hm]
    · rw [if_neg h, if_neg h]
      have := ih hrest
      unfold exceededThresholdFold specMaxExceeded at this
      exact this

/-- C1 (amended): the computed alert_threshold is the last threshold in
list order that the usage strictly exceeds; when the configured threshold
list is sorted ascending this coincides with the spec's maximum exceeded
threshold, and no threshold exceeded leaves the no-alert sentinel (none,
respectively 0).  The capacity rule evaluator returns exactly this fold,
and every alert rule_info built by the quota evaluator carries exactly this
fold as its alert_threshold. -/
theorem C1_alert_threshold_max_when_sorted :
    (∀ (pct : ℚ) (ts : List ℚ), ts.Sorted (fun a b => a ≤ b) →
      exceededThresholdFold pct ts = specMaxExceeded pct ts ∧
      alertThresholdFold pct ts = (specMaxExceeded pct ts).getD 0) ∧
    (∀ rn ri pct hist,
      (cluster_capacity_process_rule rn ri pct hist).2.1 =
        exceededThresholdFold pct ri.thresholds) ∧
    (∀ pct qu ql rn rule info,
      (checkQuotaRule pct qu ql rn rule).2 = some info →
      info.alert_threshold = alertThresholdFold pct rule.thresholds) := by
  refine ⟨fun pct ts hs => ?_, fun rn ri pct hist => ?_, fun pct qu ql rn rule info h => ?_⟩
  · refine ⟨exceededThresholdFold_sorted pct ts hs, ?_⟩
    rw [alertThresholdFold_eq, exceededThresholdFold_sorted pct ts hs]
  · unfold cluster_capacity_process_rule
    cases hex : exceededThresholdFold pct ri.thresholds with
    | none => simp
    | some t =>
      by_cases ht : t ≠ 0
      · cases halo : alookup rn hist with
        | some old => by_cases hlt : old < t <;> simp [ht, halo, hlt]
        | none => simp [ht, halo]
      · simp [ht]
  · unfold checkQuotaRule at h
    by_cases hpos : 0 < alertThresholdFold pct rule.thresholds
    · simp only [hpos, if_pos] at h
      cases h
      rfl
    · simp [hpos] at h

/-- Witness for C1: a concrete sorted threshold list satisfying the
hypothesis, with the conclusion instantiated there. -/
theorem C1_alert_threshold_max_when_sorted_witness :
    List.Sorted (fun a b => a ≤ b) [(50 : ℚ), 90] ∧
    exceededThresholdFold 95 [(50 : ℚ), 90] = specMaxExceeded 95 [(50 : ℚ), 90] ∧
    alertThresholdFold 95 [(50 : ℚ), 90] =
      (specMaxExceeded 95 [(50 : ℚ), 90]).getD 0 := by
  have hs : List.Sorted (fun a b => a ≤ b) [(50 : ℚ), 90] := by
    norm_num [List.sorted_cons]
  exact ⟨hs, (C1_alert_threshold_max_when_sorted.1 95 _ hs).1,
    (C1_alert_threshold_max_when_sorted.1 95 _ hs).2⟩

/-- Counterexample to C1 as stated: on the unsorted threshold list
[90, 50] with usage 95 the capacity evaluator computes exceeded_threshold
50, the last exceeded threshold in list order, while the maximum exceeded
threshold is 90. -/
theorem C1_unsorted_counterexample :
    (cluster_capacity_process_rule "rule1" ⟨[90, 50], [], ""⟩ 95 []).2.1 = some 50 ∧
    specMaxExceeded 95 [90, 50] = some 90 ∧
    some (50 : ℚ) ≠ some (90 : ℚ) := by
  refine ⟨?_, ?_, by norm_num⟩
  · norm_num [cluster_capacity_process_rule, exceededThresholdFold, alookup]
  · norm_num [specMaxExceeded]

/-- C9: the humanize_bytes examples of the spec, with base-1000 units and
the default and a custom suffix. -/
theorem C9_humanize_bytes_examples :
    humanize_bytes 1200000 = "1.2MB" ∧
    humanize_bytes 1234567 = "1.2MB" ∧
    humanize_bytes 1250 = "1.2KB" ∧
    humanize_bytes 1260 = "1.3KB" ∧
    humanize_bytes 10 " bytes" = "10.0 bytes" := by
  refine ⟨?_, ?_, ?_, ?_, ?_⟩ <;>
    (first
      | (norm_num [humanize_bytes, humanizeGo, pyAbs, fmtOneDecimal, roundHalfEven]
         decide))

end ClusterEmailAlerts

namespace ClusterEmailAlerts

/-- C10: replication deduplication depends only on whether the aggregated
error set is empty.  With a history entry present and a non-empty error
set, no notification fires and the history is unchanged, whatever the
membership of the error set; and the whole per-rule result is a function of
err_relationships.isEmpty alone. -/
theorem C10_replication_dedup_emptiness_only :
    (∀ rn (ri : RepRule) errs hist, hasKey rn hist = true → errs ≠ [] →
      (replication_process_rules rn ri errs hist).1 = false ∧
      (replication_process_rules rn ri errs hist).2 = hist) ∧
    (∀ rn (ri : RepRule) errs errs' hist, errs.isEmpty = errs'.isEmpty →
      replication_process_rules rn ri errs hist =
        replication_process_rules rn ri errs' hist) := by
  constructor
  · intro rn ri errs hist hk hne
    obtain ⟨v, hv⟩ := Option.isSome_iff_exists.mp hk
    cases errs with
    | nil => exact absurd rfl hne
    | cons e es => simp [replication_process_rules, hv]
  · intro rn ri errs errs' hist h
    unfold replication_process_rules
    rw [h]

/-- Witness for C10: a concrete one-element history and non-empty error
set discharging the hypotheses. -/
theorem C10_replication_dedup_emptiness_only_witness :
    hasKey "r" [("r", RepRule.mk ["a"] "")] = true ∧
    ([Relationship.mk "s" "p" "t" "q" "rp" "boom"] : List Relationship) ≠ [] ∧
    (replication_process_rules "r" ⟨["a"], ""⟩
      [Relationship.mk "s" "p" "t" "q" "rp" "boom"] [("r", ⟨["a"], ""⟩)]).1 = false ∧
    (replication_process_rules "r" ⟨["a"], ""⟩
      [Relationship.mk "s" "p" "t" "q" "rp" "boom"] [("r", ⟨["a"], ""⟩)]).2 =
      [("r", ⟨["a"], ""⟩)] := by
  have h := C10_replication_dedup_emptiness_only.1 "r" ⟨["a"], ""⟩
    [Relationship.mk "s" "p" "t" "q" "rp" "boom"] [("r", ⟨["a"], ""⟩)]
    (by decide) (by decide)
  exact ⟨by decide, by decide, h.1, h.2⟩

/-- C6 (amended): a configured threshold of 0 is logged as a warning by the
quota evaluator and iterated like any other value, but it can never yield
an active alert on its own: 0 is the no-alert sentinel, so a quota rule
whose computed alert_threshold is 0 produces no alert rule_info, and a
capacity rule whose final exceeded threshold is 0 is treated as not
exceeded, sending nothing and clearing any history entry. -/
theorem C6_zero_threshold_never_alerts :
    (∀ pct qu ql rn (rule : QuotaRule), (0 : ℚ) ∈ rule.thresholds →
      (checkQuotaRule pct qu ql rn rule).1 ≠ []) ∧
    (∀ pct qu ql rn (rule : QuotaRule),
      alertThresholdFold pct rule.thresholds = 0 →
      (checkQuotaRule pct qu ql rn rule).2 = none) ∧
    (∀ rn (ri : CapRule) pct hist,
      exceededThresholdFold pct ri.thresholds = some 0 →
      (cluster_capacity_process_rule rn ri pct hist).1 = false ∧
      hasKey rn (cluster_capacity_process_rule rn ri pct hist).2.2 = false) := by
  refine ⟨fun pct qu ql rn rule h0 => ?_, fun pct qu ql rn rule h => ?_,
    fun rn ri pct hist h => ?_⟩
  · have hmem : ("Quota rule " ++ rn ++ " has a threshold of 0.") ∈
        rule.thresholds.filterMap (fun t => if t = 0 then
          some ("Quota rule " ++ rn ++ " has a threshold of 0.") else none) :=
      List.mem_filterMap.mpr ⟨0, h0, by simp⟩
    unfold checkQuotaRule
    by_cases hpos : 0 < alertThresholdFold pct rule.thresholds <;>
      simp only [hpos, if_pos, if_neg, if_true, if_false] <;>
      exact List.ne_nil_of_mem hmem
  · simp [checkQuotaRule, h]
  · unfold cluster_capacity_process_rule
    rw [h]
    simp [hasKey_ddel]

/-- Counterexample to C6 as stated: a quota using 5% of its limit against
the threshold list [0] has maximum exceeded threshold 0 and usage above 0,
yet the quota evaluator emits only the warning and no active alert. -/
theorem C6_zero_threshold_counterexample :
    get_alerting_quotas
        [("/q", ⟨5, 100, [("r", ⟨[0], ["ops"], "", false⟩)]⟩)] =
      some (["Quota rule r has a threshold of 0."], []) ∧
    specMaxExceeded 5 [0] = some 0 := by
  constructor
  · norm_num [get_alerting_quotas, checkQuotaRules, checkQuotaRule,
      alertThresholdFold, pyRound2, roundHalfEven, List.filterMap_cons]
    decide
  · norm_num [specMaxExceeded]

/-! ### Rounding characterization (claim C7) -/

theorem roundHalfEven_spec (x : ℚ) :
    |((roundHalfEven x : ℤ) : ℚ) - x| ≤ 1 / 2 ∧
    (|((roundHalfEven x : ℤ) : ℚ) - x| = 1 / 2 → Even (roundHalfEven x)) := by
  unfold roundHalfEven
  have hfl : ((⌊x⌋ : ℤ) : ℚ) ≤ x := Int.floor_le x
  have hfu : x < (⌊x⌋ : ℤ) + 1 := Int.lt_floor_add_one x
  by_cases h1 : x - (⌊x⌋ : ℤ) < 1 / 2
  · rw [if_pos h1]
    constructor
    · rw [abs_sub_comm, abs_of_nonneg (by linarith)]
      linarith
    · intro habs
      rw [abs_sub_comm, abs_of_nonneg (by linarith)] at habs
      linarith
  · rw [if_neg h1]
    by_cases h2 : 1 / 2 < x - (⌊x⌋ : ℤ)
    · rw [if_pos h2]
      constructor
      · rw [abs_of_nonneg (by push_cast; linarith)]
        push_cast
        linarith
      · intro habs
        rw [abs_of_nonneg (by push_cast; linarith)] at habs
        push_cast at habs
        linarith
    · rw [if_neg h2]
      have heq : x - (⌊x⌋ : ℤ) = 1 / 2 := le_antisymm (le_of_not_lt h2) (le_of_not_lt h1)
      by_cases hev : ⌊x⌋ % 2 = 0
      · rw [if_pos hev]
        constructor
        · rw [abs_sub_comm, abs_of_nonneg (by linarith)]
          linarith
        · intro _
          exact Int.even_iff.mpr hev
      · rw [if_neg hev]
        constructor
        · rw [abs_of_nonneg (by push_cast; linarith)]
          push_cast
          linarith
        · intro _
          rcases Int.emod_two_eq_zero_or_one ⌊x⌋ with hm | hm
          · exact absurd hm hev
          · exact Int.even_iff.mpr (by omega)

/-- C7 (amended): the usage percentage is used/limit*100 rounded to two
decimal places with CPython's rounding, which is round-half-to-EVEN on the
exact value (not half-up): the result is n/100 for an integer n within half
a hundredth of the true percentage, and an exact tie lands on the even n.
A zero limit or zero total has no defined result (ZeroDivisionError); the
capacity family applies the same formula to used and total bytes. -/
theorem C7_percentage_rounded_half_even :
    (∀ usage limit : ℚ, limit ≠ 0 → ∃ n : ℤ,
      pct_used usage limit = some ((n : ℚ) / 100) ∧
      |(n : ℚ) / 100 - usage / limit * 100| ≤ 1 / 200 ∧
      (|(n : ℚ) / 100 - usage / limit * 100| = 1 / 200 → Even n)) ∧
    (∀ usage : ℚ, pct_used usage 0 = none) ∧
    (∀ total free : ℤ, total ≠ 0 → cluster_get_fs_usage total free =
      some (total, total - free,
        pyRound2 (((total - free : ℤ) : ℚ) / (total : ℚ) * 100))) ∧
    (∀ free : ℤ, cluster_get_fs_usage 0 free = none) := by
  have hrw : ∀ usage limit : ℚ,
      |((roundHalfEven (usage / limit * 100 * 100) : ℤ) : ℚ) / 100 -
        usage / limit * 100| =
      |((roundHalfEven (usage / limit * 100 * 100) : ℤ) : ℚ) -
        usage / limit * 100 * 100| / 100 := by
    intro usage limit
    have harith : ((roundHalfEven (usage / limit * 100 * 100) : ℤ) : ℚ) / 100 -
        usage / limit * 100 =
        (((roundHalfEven (usage / limit * 100 * 100) : ℤ) : ℚ) -
          usage / limit * 100 * 100) / 100 := by ring
    rw [harith, abs_div]
    norm_num
  refine ⟨fun usage limit hl => ?_, fun usage => by simp [pct_used],
    fun total free ht => ?_, fun free => by simp [cluster_get_fs_usage]⟩
  · refine ⟨roundHalfEven (usage / limit * 100 * 100), ?_, ?_, ?_⟩
    · simp [pct_used, hl, pyRound2]
    · have h := (roundHalfEven_spec (usage / limit * 100 * 100)).1
      rw [hrw]
      calc |((roundHalfEven (usage / limit * 100 * 100) : ℤ) : ℚ) -
            usage / limit * 100 * 100| / 100 ≤ (1 / 2) / 100 :=
              (div_le_div_iff_of_pos_right (show (0:ℚ) < 100 by norm_num)).mpr h
        _ = 1 / 200 := by norm_num
    · intro habs
      rw [hrw] at habs
      rw [div_eq_iff (show (100:ℚ) ≠ 0 by norm_num)] at habs
      norm_num at habs
      exact (roundHalfEven_spec (usage / limit * 100 * 100)).2 habs
  · simp [cluster_get_fs_usage, ht]

/-- Witness for C7 at usage 1, limit 800. -/
theorem C7_percentage_rounded_half_even_witness :
    (800 : ℚ) ≠ 0 ∧ (∃ n : ℤ,
      pct_used 1 800 = some ((n : ℚ) / 100) ∧
      |(n : ℚ) / 100 - 1 / 800 * 100| ≤ 1 / 200 ∧
      (|(n : ℚ) / 100 - 1 / 800 * 100| = 1 / 200 → Even n)) := by
  exact ⟨by norm_num, C7_percentage_rounded_half_even.1 1 800 (by norm_num)⟩

/-- Specification-side rounding from the claim's words: standard half-up
rounding to two decimal places, a half-cent rounding away from zero for the
nonnegative percentages at issue. -/
def specRoundHalfUp2 (x : ℚ) : ℚ := ((⌊x * 100 + 1 / 2⌋ : ℤ) : ℚ) / 100

/-- Counterexample to C7 as stated: 1/800 of the limit is exactly 0.125
percent; half-up rounding gives 0.13 but the code rounds the tie to even
and yields 0.12. -/
theorem C7_half_up_counterexample :
    pct_used 1 800 = some (3 / 25) ∧
    specRoundHalfUp2 (1 / 800 * 100) = 13 / 100 ∧
    (3 / 25 : ℚ) ≠ 13 / 100 := by
  refine ⟨?_, ?_, by norm_num⟩
  · norm_num [pct_used, pyRound2, roundHalfEven]
  · norm_num [specRoundHalfUp2]

end ClusterEmailAlerts

namespace ClusterEmailAlerts

/-- Witness for C6: a concrete capacity rule whose final exceeded threshold
is 0, discharging the hypothesis of the capacity clause. -/
theorem C6_zero_threshold_never_alerts_witness :
    exceededThresholdFold 5 [(0 : ℚ)] = some 0 ∧
    (cluster_capacity_process_rule "r" ⟨[0], ["ops"], ""⟩ 5 [("r", 90)]).1 = false ∧
    hasKey "r" (cluster_capacity_process_rule "r" ⟨[0], ["ops"], ""⟩ 5
      [("r", 90)]).2.2 = false := by
  have hex : exceededThresholdFold 5 [(0 : ℚ)] = some 0 := by
    norm_num [exceededThresholdFold]
  have h := C6_zero_threshold_never_alerts.2.2 "r" ⟨[0], ["ops"], ""⟩ 5
    [("r", 90)] hex
  exact ⟨hex, h.1, h.2⟩

end ClusterEmailAlerts

namespace ClusterEmailAlerts

/-! ### Further dict lemmas -/

theorem hasKey_of_mem {α : Type} {k : String} {v : α} {m : List (String × α)}
    (h : (k, v) ∈ m) : hasKey k m = true := by
  induction m with
  | nil => simp at h
  | cons e rest ih =>
    obtain ⟨k', v'⟩ := e
    rcases List.mem_cons.mp h with hh | hh
    · have : k = k' := congrArg Prod.fst hh
      subst this
      simp [hasKey, alookup]
    · by_cases hk : k' = k <;> simp [hasKey, alookup, hk, ih hh] at *
      exact ih hh

theorem exists_mem_of_hasKey {α : Type} {k : String} {m : List (String × α)}
    (h : hasKey k m = true) : ∃ v, (k, v) ∈ m := by
  obtain ⟨v, hv⟩ := Option.isSome_iff_exists.mp h
  exact ⟨v, mem_of_alookup_eq_some hv⟩

theorem alookup_eq_none_of_hasKey_false {α : Type} {k : String}
    {m : List (String × α)} (h : hasKey k m = false) : alookup k m = none := by
  unfold hasKey at h
  exact Option.not_isSome_iff_eq_none.mp (by simp [h])

/-! ### Characterization of the cleanup pass -/

theorem alookup_foldl_ddel {α : Type} (l : List String) (h : List (String × α))
    (p : String) :
    alookup p (l.foldl (fun h q => ddel q h) h) =
      if p ∈ l then none else alookup p h := by
  induction l generalizing h with
  | nil => simp
  | cons q rest ih =>
    simp only [List.foldl_cons]
    rw [ih]
    by_cases hq : p = q
    · subst hq
      by_cases hp : p ∈ rest <;> simp [hp, alookup_ddel_self]
    · by_cases hp : p ∈ rest <;>
        simp [hp, hq, alookup_ddel_ne h hq]

theorem mem_quotasToRemove (aq : AlertQuotas) (hist : HistQ) (p : String) :
    (p ∈ quotasToRemove aq hist) ↔ (hasKey p hist = true ∧ hasKey p aq = false) := by
  unfold quotasToRemove
  constructor
  · intro h
    obtain ⟨e, he, hep⟩ := List.mem_map.mp h
    obtain ⟨hmem, hfilt⟩ := List.mem_filter.mp he
    obtain ⟨k, v⟩ := e
    simp only at hep
    subst hep
    refine ⟨hasKey_of_mem hmem, ?_⟩
    simpa using hfilt
  · rintro ⟨h1, h2⟩
    obtain ⟨v, hv⟩ := exists_mem_of_hasKey h1
    exact List.mem_map.mpr ⟨(p, v), List.mem_filter.mpr ⟨hv, by simpa using h2⟩, rfl⟩

theorem alookup_cleanup_phase1 (aq : AlertQuotas) (hist : HistQ) (p : String) :
    alookup p ((quotasToRemove aq hist).foldl (fun h q => ddel q h) hist) =
      if hasKey p aq = true then alookup p hist else none := by
  rw [alookup_foldl_ddel]
  by_cases ha : hasKey p aq = true
  · have : p ∉ quotasToRemove aq hist := by
      rw [mem_quotasToRemove]
      simp [ha]
    simp [this, ha]
  · have ha' : hasKey p aq = false := by simpa using ha
    by_cases hh : hasKey p hist = true
    · have : p ∈ quotasToRemove aq hist := (mem_quotasToRemove aq hist p).mpr ⟨hh, ha'⟩
      simp [this, ha']
    · have : p ∉ quotasToRemove aq hist := by
        rw [mem_quotasToRemove]
        simp [hh]
      simp [this, ha', alookup_eq_none_of_hasKey_false (by simpa using hh)]

theorem alookup2_foldl_ruledel (L : List (String × String)) (h : HistQ)
    (p r : String) :
    alookup2 (L.foldl
        (fun h pr => dset pr.1 (ddel pr.2 ((alookup pr.1 h).getD [])) h) h) p r =
      if (p, r) ∈ L then none else alookup2 h p r := by
  induction L generalizing h with
  | nil => simp
  | cons pr rest ih =>
    obtain ⟨p0, r0⟩ := pr
    simp only [List.foldl_cons]
    rw [ih]
    have hstep : alookup2 (dset p0 (ddel r0 ((alookup p0 h).getD [])) h) p r =
        if p = p0 ∧ r = r0 then none else alookup2 h p r := by
      by_cases hp : p = p0
      · subst hp
        unfold alookup2
        rw [alookup_dset_self]
        by_cases hr : r = r0
        · subst hr
          simp [alookup_ddel_self]
        · cases hin : alookup p h with
          | none => simp [hr, alookup_ddel_ne _ hr, alookup]
          | some inner => simp [hr, alookup_ddel_ne _ hr]
      · unfold alookup2
        rw [alookup_dset_ne _ _ hp]
        simp [hp]
    by_cases hmem : (p, r) ∈ rest
    · simp [hmem]
    · have hcons : ((p, r) ∈ (p0, r0) :: rest) ↔ (p = p0 ∧ r = r0) := by
        simp [hmem, Prod.ext_iff]
      simp only [hmem, if_neg, if_false]
      rw [hstep]
      by_cases hpr : p = p0 ∧ r = r0 <;> simp [hpr, hcons]

theorem mem_rulesToRemove_of_lookup (aq : AlertQuotas) (hist : HistQ)
    {p r : String} {hre : List (String × AlertInfo)} {v : AlertInfo}
    (hp : alookup p hist = some hre) (hr : alookup r hre = some v)
    (hpaq : hasKey p aq = true)
    (hraq : hasKey r ((alookup p aq).getD []) = false) :
    (p, r) ∈ rulesToRemove aq hist := by
  unfold rulesToRemove
  apply List.mem_flatMap.mpr
  refine ⟨(p, hre), mem_of_alookup_eq_some hp, ?_⟩
  simp only [hpaq, if_pos, if_true]
  exact List.mem_map.mpr ⟨(r, v), List.mem_filter.mpr
    ⟨mem_of_alookup_eq_some hr, by simpa using hraq⟩, rfl⟩

theorem not_mem_rulesToRemove (aq : AlertQuotas) (hist : HistQ) {p r : String}
    (h : hasKey r ((alookup p aq).getD []) = true) :
    (p, r) ∉ rulesToRemove aq hist := by
  intro hmem
  unfold rulesToRemove at hmem
  obtain ⟨e, hmem', hin⟩ := List.mem_flatMap.mp hmem
  by_cases hk : hasKey e.1 aq = true
  · simp only [hk, if_pos, if_true] at hin
    obtain ⟨re, hre, heq⟩ := List.mem_map.mp hin
    obtain ⟨hmemre, hfilt⟩ := List.mem_filter.mp hre
    have hep : e.1 = p := congrArg Prod.fst heq
    have her : re.1 = r := congrArg Prod.snd heq
    rw [hep, her] at hfilt
    simp [h] at hfilt
  · simp only [hk] at hin
    simp at hin

theorem rulesToRemove_hasKey (aq : AlertQuotas) (hist : HistQ) {pr : String × String}
    (h : pr ∈ rulesToRemove aq hist) : hasKey pr.1 hist = true ∧ hasKey pr.1 aq = true := by
  unfold rulesToRemove at h
  obtain ⟨e, hmem, hin⟩ := List.mem_flatMap.mp h
  by_cases hk : hasKey e.1 aq = true
  · simp only [hk, if_pos, if_true] at hin
    obtain ⟨re, _, heq⟩ := List.mem_map.mp hin
    have hep : e.1 = pr.1 := by rw [← heq]
    obtain ⟨k, v⟩ := e
    simp only at hep
    subst hep
    exact ⟨hasKey_of_mem hmem, hk⟩
  · simp only [hk] at hin
    simp at hin

end ClusterEmailAlerts

namespace ClusterEmailAlerts

theorem hasKey_dset_of_present {α : Type} {k : String} {v : α}
    {m : List (String × α)} (h : hasKey k m = true) (q : String) :
    hasKey q (dset k v m) = hasKey q m := by
  rw [hasKey_dset]
  by_cases hq : q = k
  · subst hq
    simp [h]
  · simp [hq]

theorem hasKey_foldl_ruledel (L : List (String × String)) (h : HistQ)
    (hinv : ∀ pr ∈ L, hasKey pr.1 h = true) (p : String) :
    hasKey p (L.foldl
      (fun h pr => dset pr.1 (ddel pr.2 ((alookup pr.1 h).getD [])) h) h) =
      hasKey p h := by
  induction L generalizing h with
  | nil => simp
  | cons pr rest ih =>
    obtain ⟨p0, r0⟩ := pr
    simp only [List.foldl_cons]
    have h0 : hasKey p0 h = true := hinv (p0, r0) (List.mem_cons_self _ _)
    have hstep : ∀ q, hasKey q (dset p0 (ddel r0 ((alookup p0 h).getD [])) h) =
        hasKey q h := fun q => hasKey_dset_of_present h0 q
    rw [ih _ (fun pr hpr => by rw [hstep]; exact hinv pr (List.mem_cons_of_mem _ hpr))]
    exact hstep p

theorem alookup2_pqwhCleanup (aq : AlertQuotas) (hist : HistQ) (p r : String) :
    alookup2 (pqwhCleanup aq hist) p r =
      if (alookup2 aq p r).isSome = true then alookup2 hist p r else none := by
  simp only [pqwhCleanup]
  rw [alookup2_foldl_ruledel]
  have hh1 : alookup2 ((quotasToRemove aq hist).foldl (fun h q => ddel q h) hist) p r =
      if hasKey p aq = true then alookup2 hist p r else none := by
    unfold alookup2
    rw [alookup_cleanup_phase1]
    by_cases ha : hasKey p aq = true <;> simp [ha]
  rw [hh1]
  by_cases hsome : (alookup2 aq p r).isSome = true
  · obtain ⟨w, hw⟩ := Option.isSome_iff_exists.mp hsome
    unfold alookup2 at hw
    cases hinner : alookup p aq with
    | none => rw [hinner] at hw; simp at hw
    | some inner =>
      rw [hinner] at hw
      simp only [Option.some_bind] at hw
      have hpaq : hasKey p aq = true := by
        unfold hasKey
        rw [hinner]
        rfl
      have hraq : hasKey r ((alookup p aq).getD []) = true := by
        rw [hinner]
        simp only [Option.getD_some]
        unfold hasKey
        rw [hw]
        rfl
      have hnm : (p, r) ∉ rulesToRemove aq hist := not_mem_rulesToRemove aq hist hraq
      simp [hnm, hpaq, hsome]
  · by_cases hpaq : hasKey p aq = true
    · cases hh : alookup2 hist p r with
      | none =>
        by_cases hmem : (p, r) ∈ rulesToRemove aq hist <;>
          simp [hmem, hpaq, hsome, hh]
      | some v =>
        obtain ⟨inner, hinner⟩ := Option.isSome_iff_exists.mp hpaq
        have hraq : hasKey r ((alookup p aq).getD []) = false := by
          unfold alookup2 at hsome
          rw [hinner] at hsome
          simp only [Option.some_bind] at hsome
          rw [hinner]
          simp only [Option.getD_some]
          unfold hasKey
          simpa using hsome
        unfold alookup2 at hh
        cases hhp : alookup p hist with
        | none => rw [hhp] at hh; simp only [Option.none_bind] at hh; exact absurd hh (by simp)
        | some hre =>
          rw [hhp] at hh
          simp only [Option.some_bind] at hh
          have hmem : (p, r) ∈ rulesToRemove aq hist :=
            mem_rulesToRemove_of_lookup aq hist hhp hh hpaq hraq
          simp [hmem, hsome]
    · by_cases hmem : (p, r) ∈ rulesToRemove aq hist <;>
        simp [hmem, hpaq, hsome]

theorem hasKey_pqwhCleanup (aq : AlertQuotas) (hist : HistQ) (p : String) :
    hasKey p (pqwhCleanup aq hist) = (hasKey p hist && hasKey p aq) := by
  simp only [pqwhCleanup]
  have hinv : ∀ pr ∈ rulesToRemove aq hist,
      hasKey pr.1 ((quotasToRemove aq hist).foldl (fun h q => ddel q h) hist) = true := by
    intro pr hpr
    obtain ⟨h1, h2⟩ := rulesToRemove_hasKey aq hist hpr
    unfold hasKey
    rw [alookup_cleanup_phase1]
    simp [h2]
    exact h1
  rw [hasKey_foldl_ruledel _ _ hinv]
  unfold hasKey
  rw [alookup_cleanup_phase1]
  unfold hasKey
  by_cases ha : (alookup p aq).isSome = true <;> simp [ha]

end ClusterEmailAlerts

namespace ClusterEmailAlerts

theorem alookup_dset2_outside {α : Type} {p path r : String} (v : α)
    (m : List (String × List (String × α))) (hp : p ≠ path) :
    alookup p (dset2 path r v m) = alookup p m := by
  unfold dset2
  exact alookup_dset_ne _ _ hp

theorem pqwhRulesGo_outside (path : String) (rs : List (String × AlertInfo)) :
    ∀ (notify : AlertQuotas) (hist : HistQ) (p : String), p ≠ path →
    alookup p (pqwhRulesGo path rs (notify, hist)).1 = alookup p notify ∧
    alookup p (pqwhRulesGo path rs (notify, hist)).2 = alookup p hist := by
  induction rs with
  | nil => intro notify hist p hp; exact ⟨rfl, rfl⟩
  | cons rv rest ih =>
    intro notify hist p hp
    obtain ⟨r0, v0⟩ := rv
    show alookup p (pqwhRulesGo path ((r0, v0) :: rest) (notify, hist)).1 = _ ∧ _
    unfold pqwhRulesGo
    cases hm : (alookup path hist).bind (fun inner => alookup r0 inner) with
    | none =>
      have h := ih (dset2 path r0 v0 notify) (dset2 path r0 v0 hist) p hp
      rw [h.1, h.2, alookup_dset2_outside _ _ hp, alookup_dset2_outside _ _ hp]
      exact ⟨rfl, rfl⟩
    | some old =>
      dsimp only
      by_cases hlt : old.alert_threshold < v0.alert_threshold
      · rw [if_pos hlt]
        have h := ih (dset2 path r0 v0 notify) (dset2 path r0 v0 hist) p hp
        rw [h.1, h.2, alookup_dset2_outside _ _ hp, alookup_dset2_outside _ _ hp]
        exact ⟨rfl, rfl⟩
      · rw [if_neg hlt]
        have h := ih notify (dset2 path r0 v0 hist) p hp
        rw [h.1, h.2, alookup_dset2_outside _ _ hp]
        exact ⟨rfl, rfl⟩

theorem pqwhRulesGo_hist_self (path : String) (rs : List (String × AlertInfo))
    (hnd : NodupKeys rs) :
    ∀ (notify : AlertQuotas) (hist : HistQ) (r : String),
    alookup2 (pqwhRulesGo path rs (notify, hist)).2 path r =
      match alookup r rs with
      | some v => some v
      | none => alookup2 hist path r := by
  induction rs with
  | nil => intro notify hist r; simp [pqwhRulesGo, alookup]
  | cons rv rest ih =>
    intro notify hist r
    obtain ⟨r0, v0⟩ := rv
    have hcons0 : (r0 :: keysOf rest).Nodup := hnd
    have hnd' : NodupKeys rest := (List.nodup_cons.mp hcons0).2
    have hr0 : r0 ∉ keysOf rest := (List.nodup_cons.mp hcons0).1
    unfold pqwhRulesGo
    have hset : ∀ (notify' : AlertQuotas),
        alookup2 (pqwhRulesGo path rest (notify', dset2 path r0 v0 hist)).2 path r =
          match alookup r ((r0, v0) :: rest) with
          | some v => some v
          | none => alookup2 hist path r := by
      intro notify'
      rw [ih hnd' notify' (dset2 path r0 v0 hist) r]
      by_cases hr : r = r0
      · subst hr
        have : alookup r rest = none := by
          cases halo : alookup r rest with
          | none => rfl
          | some w =>
            exact absurd (by
              have := mem_of_alookup_eq_some halo
              exact List.mem_map.mpr ⟨(r, w), this, rfl⟩) hr0
        rw [this]
        simp [alookup, alookup2_dset2_self]
      · have hcons : alookup r ((r0, v0) :: rest) = alookup r rest := by
          have hh : alookup r ((r0, v0) :: rest) =
              if r0 = r then some v0 else alookup r rest := rfl
          rw [hh, if_neg (fun h : r0 = r => hr h.symm)]
        rw [hcons]
        cases halo : alookup r rest with
        | some w => simp
        | none => simp [alookup2_dset2_ne path r0 path r v0 hist (Or.inr hr)]
    cases hm : (alookup path hist).bind (fun inner => alookup r0 inner) with
    | none => exact hset _
    | some old =>
      dsimp only
      by_cases hlt : old.alert_threshold < v0.alert_threshold
      · rw [if_pos hlt]
        exact hset _
      · rw [if_neg hlt]
        exact hset _

end ClusterEmailAlerts

namespace ClusterEmailAlerts

/-- Outcome of the per-rule comparison of process_quotas_with_history for
one rule name r, given the alerting rules rs and the original inner history
dict hr of the path: the rule_info to notify with, or none. -/
def innerCond (rs hr : List (String × AlertInfo)) (r : String) : Option AlertInfo :=
  match alookup r rs with
  | none => none
  | some v =>
    match alookup r hr with
    | none => some v
    | some old => if old.alert_threshold < v.alert_threshold then some v else none

theorem hasKey_dset2 {α : Type} (path r : String) (v : α)
    (m : List (String × List (String × α))) (q : String) :
    hasKey q (dset2 path r v m) = (hasKey q m || decide (q = path)) := by
  unfold dset2
  exact hasKey_dset path q _ m

theorem pqwhRulesGo_hasKey_hist (path : String) (rs : List (String × AlertInfo)) :
    ∀ (notify : AlertQuotas) (hist : HistQ), hasKey path hist = true →
    ∀ q, hasKey q (pqwhRulesGo path rs (notify, hist)).2 = hasKey q hist := by
  induction rs with
  | nil => intro notify hist hp q; rfl
  | cons rv rest ih =>
    intro notify hist hp q
    obtain ⟨r0, v0⟩ := rv
    have hstep : ∀ q, hasKey q (dset2 path r0 v0 hist) = hasKey q hist := by
      intro q
      unfold dset2
      exact hasKey_dset_of_present hp q
    have hp' : hasKey path (dset2 path r0 v0 hist) = true := by rw [hstep]; exact hp
    unfold pqwhRulesGo
    cases hm : (alookup path hist).bind (fun inner => alookup r0 inner) with
    | none => rw [ih _ _ hp' q, hstep]
    | some old =>
      dsimp only
      by_cases hlt : old.alert_threshold < v0.alert_threshold
      · rw [if_pos hlt, ih _ _ hp' q, hstep]
      · rw [if_neg hlt, ih _ _ hp' q, hstep]

theorem pqwhRulesGo_notify_self (path : String) (rs : List (String × AlertInfo))
    (hnd : NodupKeys rs) :
    ∀ (hr : List (String × AlertInfo)) (notify : AlertQuotas) (hist : HistQ),
    (∀ rv ∈ rs, alookup2 hist path rv.1 = alookup rv.1 hr) →
    ∀ r, alookup2 (pqwhRulesGo path rs (notify, hist)).1 path r =
      match innerCond rs hr r with
      | some v => some v
      | none => alookup2 notify path r := by
  induction rs with
  | nil => intro hr notify hist hhr r; simp [pqwhRulesGo, innerCond, alookup]
  | cons rv rest ih =>
    intro hr notify hist hhr r
    obtain ⟨r0, v0⟩ := rv
    have hcons0 : (r0 :: keysOf rest).Nodup := hnd
    have hnd' : NodupKeys rest := (List.nodup_cons.mp hcons0).2
    have hr0 : r0 ∉ keysOf rest := (List.nodup_cons.mp hcons0).1
    have hm0 : ((alookup path hist).bind fun inner => alookup r0 inner) =
        alookup r0 hr := hhr (r0, v0) (List.mem_cons_self _ _)
    have halo_rest_r0 : alookup r0 rest = none := by
      cases halo : alookup r0 rest with
      | none => rfl
      | some w =>
        exact absurd (List.mem_map.mpr ⟨(r0, w), mem_of_alookup_eq_some halo, rfl⟩) hr0
    have hicons : ∀ q, q ≠ r0 →
        innerCond ((r0, v0) :: rest) hr q = innerCond rest hr q := by
      intro q hq
      unfold innerCond
      have hh : alookup q ((r0, v0) :: rest) =
          if r0 = q then some v0 else alookup q rest := rfl
      rw [hh, if_neg (fun h : r0 = q => hq h.symm)]
    have htrans : ∀ rv ∈ rest,
        alookup2 (dset2 path r0 v0 hist) path rv.1 = alookup rv.1 hr := by
      intro rv hv
      have hne : rv.1 ≠ r0 := by
        intro he
        exact hr0 (he ▸ List.mem_map.mpr ⟨rv, hv, rfl⟩)
      rw [alookup2_dset2_ne path r0 path rv.1 v0 hist (Or.inr hne)]
      exact hhr rv (List.mem_cons_of_mem _ hv)
    unfold pqwhRulesGo
    rw [hm0]
    cases halo : alookup r0 hr with
    | none =>
      rw [ih hnd' hr (dset2 path r0 v0 notify) (dset2 path r0 v0 hist) htrans r]
      by_cases hrr : r = r0
      · subst hrr
        have h1 : innerCond rest hr r = none := by
          unfold innerCond
          rw [halo_rest_r0]
        have h2 : innerCond ((r, v0) :: rest) hr r = some v0 := by
          unfold innerCond
          have hh : alookup r ((r, v0) :: rest) =
              if r = r then some v0 else alookup r rest := rfl
          rw [hh, if_pos rfl, halo]
        rw [h1, h2]
        exact alookup2_dset2_self path r v0 notify
      · rw [hicons r hrr]
        cases hic : innerCond rest hr r with
        | some v => rfl
        | none =>
          exact alookup2_dset2_ne path r0 path r v0 notify (Or.inr hrr)
    | some old =>
      dsimp only
      by_cases hlt : old.alert_threshold < v0.alert_threshold
      · rw [if_pos hlt]
        rw [ih hnd' hr (dset2 path r0 v0 notify) (dset2 path r0 v0 hist) htrans r]
        by_cases hrr : r = r0
        · subst hrr
          have h1 : innerCond rest hr r = none := by
            unfold innerCond
            rw [halo_rest_r0]
          have h2 : innerCond ((r, v0) :: rest) hr r = some v0 := by
            unfold innerCond
            have hh : alookup r ((r, v0) :: rest) =
                if r = r then some v0 else alookup r rest := rfl
            rw [hh, if_pos rfl, halo]
            dsimp only
            rw [if_pos hlt]
          rw [h1, h2]
          exact alookup2_dset2_self path r v0 notify
        · rw [hicons r hrr]
          cases hic : innerCond rest hr r with
          | some v => rfl
          | none =>
            exact alookup2_dset2_ne path r0 path r v0 notify (Or.inr hrr)
      · rw [if_neg hlt]
        rw [ih hnd' hr notify (dset2 path r0 v0 hist) htrans r]
        by_cases hrr : r = r0
        · subst hrr
          have h1 : innerCond rest hr r = none := by
            unfold innerCond
            rw [halo_rest_r0]
          have h2 : innerCond ((r, v0) :: rest) hr r = none := by
            unfold innerCond
            have hh : alookup r ((r, v0) :: rest) =
                if r = r then some v0 else alookup r rest := rfl
            rw [hh, if_pos rfl, halo]
            dsimp only
            rw [if_neg hlt]
          rw [h1, h2]
        · rw [hicons r hrr]

end ClusterEmailAlerts

namespace ClusterEmailAlerts

theorem alookup_eq_none_of_not_mem_keys {α : Type} {k : String}
    {m : List (String × α)} (h : k ∉ keysOf m) : alookup k m = none := by
  cases halo : alookup k m with
  | none => rfl
  | some w =>
    exact absurd (List.mem_map.mpr ⟨(k, w), mem_of_alookup_eq_some halo, rfl⟩) h

theorem alookup_cons_self {α : Type} (k : String) (v : α) (m : List (String × α)) :
    alookup k ((k, v) :: m) = some v := by
  have hh : alookup k ((k, v) :: m) = if k = k then some v else alookup k m := rfl
  rw [hh, if_pos rfl]

theorem alookup_cons_ne {α : Type} {k p : String} (v : α) (m : List (String × α))
    (h : p ≠ k) : alookup p ((k, v) :: m) = alookup p m := by
  have hh : alookup p ((k, v) :: m) = if k = p then some v else alookup p m := rfl
  rw [hh, if_neg (fun he : k = p => h he.symm)]

theorem alookup2_congr_left {α : Type} {m m' : List (String × List (String × α))}
    {p : String} (h : alookup p m = alookup p m') (r : String) :
    alookup2 m p r = alookup2 m' p r := by
  unfold alookup2
  rw [h]

theorem pqwhGo_hist_lookup :
    ∀ (qs : AlertQuotas), NodupKeys qs → (∀ e ∈ qs, NodupKeys e.2) →
    ∀ (notify : AlertQuotas) (hist : HistQ) (p r : String),
    alookup2 (pqwhGo qs (notify, hist)).2 p r =
      match alookup2 qs p r with
      | some v => some v
      | none => alookup2 hist p r := by
  intro qs
  induction qs with
  | nil =>
    intro _ _ notify hist p r
    simp [pqwhGo, alookup2, alookup]
  | cons e rest ih =>
    intro hq hqi notify hist p r
    obtain ⟨p0, rules0⟩ := e
    have hcons0 : (p0 :: keysOf rest).Nodup := hq
    have hq' : NodupKeys rest := (List.nodup_cons.mp hcons0).2
    have hp0 : p0 ∉ keysOf rest := (List.nodup_cons.mp hcons0).1
    have hin0 : NodupKeys rules0 := hqi (p0, rules0) (List.mem_cons_self _ _)
    have hqi' : ∀ e ∈ rest, NodupKeys e.2 :=
      fun e he => hqi e (List.mem_cons_of_mem _ he)
    have hrest_p0 : ∀ r', alookup2 rest p0 r' = none := by
      intro r'
      unfold alookup2
      rw [alookup_eq_none_of_not_mem_keys hp0]
      rfl
    unfold pqwhGo
    by_cases hb : hasKey p0 hist = true
    · rw [if_pos hb]
      rcases hst : pqwhRulesGo p0 rules0
          ((if hasKey p0 notify then notify else dset p0 [] notify), hist) with ⟨n1, h1⟩
      dsimp only
      rw [hst, ih hq' hqi' n1 h1 p r]
      by_cases hpp : p = p0
      · subst hpp
        rw [hrest_p0 r]
        have hself := pqwhRulesGo_hist_self p rules0 hin0
          (if hasKey p notify then notify else dset p [] notify) hist r
        rw [hst] at hself
        simp only at hself
        rw [hself]
        unfold alookup2
        rw [alookup_cons_self]
        rfl
      · have hout := (pqwhRulesGo_outside p0 rules0
          (if hasKey p0 notify then notify else dset p0 [] notify) hist p hpp).2
        rw [hst] at hout
        simp only at hout
        have hcons : alookup2 ((p0, rules0) :: rest) p r = alookup2 rest p r :=
          alookup2_congr_left (alookup_cons_ne rules0 rest hpp) r
        rw [hcons]
        cases hrr : alookup2 rest p r with
        | some v => rfl
        | none => exact alookup2_congr_left hout r
    · rw [if_neg hb]
      rw [ih hq' hqi' (dset p0 rules0 notify) (dset p0 rules0 hist) p r]
      by_cases hpp : p = p0
      · subst hpp
        rw [hrest_p0 r]
        have hhist_none : alookup2 hist p r = none := by
          unfold alookup2
          rw [alookup_eq_none_of_hasKey_false (by simpa using hb)]
          rfl
        have hcons : alookup2 ((p, rules0) :: rest) p r = alookup r rules0 := by
          unfold alookup2
          rw [alookup_cons_self]
          rfl
        have hdset : alookup2 (dset p rules0 hist) p r = alookup r rules0 := by
          unfold alookup2
          rw [alookup_dset_self]
          rfl
        rw [hdset, hcons, hhist_none]
        cases alookup r rules0 with
        | some v => rfl
        | none => rfl
      · have hcons : alookup2 ((p0, rules0) :: rest) p r = alookup2 rest p r :=
          alookup2_congr_left (alookup_cons_ne rules0 rest hpp) r
        have hdset : alookup2 (dset p0 rules0 hist) p r = alookup2 hist p r :=
          alookup2_congr_left (alookup_dset_ne rules0 hist hpp) r
        rw [hcons, hdset]

end ClusterEmailAlerts

namespace ClusterEmailAlerts

/-- Per-(path, rule) outcome of the update pass of
process_quotas_with_history against the initial history: the rule_info a
run notifies with, or none. -/
def notifyCond (qs : AlertQuotas) (hist : HistQ) (p r : String) : Option AlertInfo :=
  match alookup2 qs p r with
  | none => none
  | some v =>
    match alookup p hist with
    | none => some v
    | some hr =>
      match alookup r hr with
      | none => some v
      | some old => if old.alert_threshold < v.alert_threshold then some v else none

theorem pqwhGo_notify_lookup :
    ∀ (qs : AlertQuotas), NodupKeys qs → (∀ e ∈ qs, NodupKeys e.2) →
    ∀ (notify : AlertQuotas) (hist : HistQ),
    (∀ p, hasKey p qs = true → hasKey p notify = false) →
    ∀ p r, alookup2 (pqwhGo qs (notify, hist)).1 p r =
      match notifyCond qs hist p r with
      | some v => some v
      | none => alookup2 notify p r := by
  intro qs
  induction qs with
  | nil =>
    intro _ _ notify hist _ p r
    simp [pqwhGo, notifyCond, alookup2, alookup]
  | cons e rest ih =>
    intro hq hqi notify hist hdisj p r
    obtain ⟨p0, rules0⟩ := e
    have hcons0 : (p0 :: keysOf rest).Nodup := hq
    have hq' : NodupKeys rest := (List.nodup_cons.mp hcons0).2
    have hp0 : p0 ∉ keysOf rest := (List.nodup_cons.mp hcons0).1
    have hin0 : NodupKeys rules0 := hqi (p0, rules0) (List.mem_cons_self _ _)
    have hqi' : ∀ e ∈ rest, NodupKeys e.2 :=
      fun e he => hqi e (List.mem_cons_of_mem _ he)
    have hd0 : hasKey p0 notify = false := by
      apply hdisj
      unfold hasKey
      rw [alookup_cons_self]
      rfl
    have hrest_p0 : ∀ r', alookup2 rest p0 r' = none := by
      intro r'
      unfold alookup2
      rw [alookup_eq_none_of_not_mem_keys hp0]
      rfl
    have hncond_ne : ∀ (hist' : HistQ) p', p' ≠ p0 →
        alookup p' hist' = alookup p' hist →
        notifyCond rest hist' p' r = notifyCond ((p0, rules0) :: rest) hist p' r := by
      intro hist' p' hne hpres
      unfold notifyCond
      rw [alookup2_congr_left (alookup_cons_ne rules0 rest hne) r, hpres]
    have hnotify_p0_none : alookup2 notify p0 r = none := by
      unfold alookup2
      rw [alookup_eq_none_of_hasKey_false hd0]
      rfl
    unfold pqwhGo
    by_cases hb : hasKey p0 hist = true
    · rw [if_pos hb, if_neg (by simp [hd0])]
      obtain ⟨hr0, hhr0⟩ := Option.isSome_iff_exists.mp hb
      rcases hst : pqwhRulesGo p0 rules0 (dset p0 [] notify, hist) with ⟨n1, h1⟩
      have hdisj' : ∀ q, hasKey q rest = true → hasKey q n1 = false := by
        intro q hkq
        have hqn : q ≠ p0 := by
          intro he
          exact hp0 (he ▸ (by
            obtain ⟨v, hv⟩ := exists_mem_of_hasKey hkq
            exact List.mem_map.mpr ⟨(q, v), hv, rfl⟩))
        have hout := (pqwhRulesGo_outside p0 rules0 (dset p0 [] notify) hist q hqn).1
        rw [hst] at hout
        simp only at hout
        unfold hasKey
        rw [hout, alookup_dset_ne _ _ hqn]
        exact hdisj q (by
          unfold hasKey
          rw [alookup_cons_ne rules0 rest hqn]
          exact hkq)
      dsimp only
      rw [hst, ih hq' hqi' n1 h1 hdisj' p r]
      by_cases hpp : p = p0
      · subst hpp
        have hncond_rest : notifyCond rest h1 p r = none := by
          unfold notifyCond
          rw [hrest_p0 r]
        rw [hncond_rest]
        have hself := pqwhRulesGo_notify_self p rules0 hin0 hr0
          (dset p [] notify) hist (by
            intro rv hv
            unfold alookup2
            rw [hhr0]
            rfl) r
        rw [hst] at hself
        simp only at hself
        rw [hself]
        have hic : innerCond rules0 hr0 r = notifyCond ((p, rules0) :: rest) hist p r := by
          unfold innerCond notifyCond
          unfold alookup2
          rw [alookup_cons_self, hhr0]
          rfl
        have hd2 : alookup2 (dset p [] notify) p r = none := by
          unfold alookup2
          rw [alookup_dset_self]
          rfl
        rw [hic, hd2]
        cases notifyCond ((p, rules0) :: rest) hist p r with
        | some v => rfl
        | none => rw [hnotify_p0_none]
      · have hout := pqwhRulesGo_outside p0 rules0 (dset p0 [] notify) hist p hpp
        rw [hst] at hout
        simp only at hout
        rw [hncond_ne h1 p hpp hout.2]
        cases notifyCond ((p0, rules0) :: rest) hist p r with
        | some v => rfl
        | none =>
          rw [alookup2_congr_left hout.1 r,
            alookup2_congr_left (alookup_dset_ne ([] : List (String × AlertInfo)) notify hpp) r]
    · rw [if_neg hb]
      have hdisj' : ∀ q, hasKey q rest = true → hasKey q (dset p0 rules0 notify) = false := by
        intro q hkq
        have hqn : q ≠ p0 := by
          intro he
          exact hp0 (he ▸ (by
            obtain ⟨v, hv⟩ := exists_mem_of_hasKey hkq
            exact List.mem_map.mpr ⟨(q, v), hv, rfl⟩))
        unfold hasKey
        rw [alookup_dset_ne _ _ hqn]
        exact hdisj q (by
          unfold hasKey
          rw [alookup_cons_ne rules0 rest hqn]
          exact hkq)
      rw [ih hq' hqi' (dset p0 rules0 notify) (dset p0 rules0 hist) hdisj' p r]
      by_cases hpp : p = p0
      · subst hpp
        have hncond_rest : notifyCond rest (dset p rules0 hist) p r = none := by
          unfold notifyCond
          rw [hrest_p0 r]
        rw [hncond_rest]
        have hd2 : alookup2 (dset p rules0 notify) p r = alookup r rules0 := by
          unfold alookup2
          rw [alookup_dset_self]
          rfl
        have hcond : notifyCond ((p, rules0) :: rest) hist p r =
            alookup r rules0 := by
          unfold notifyCond
          unfold alookup2
          rw [alookup_cons_self,
            alookup_eq_none_of_hasKey_false (by simpa using hb)]
          simp only [Option.some_bind]
          cases alookup r rules0 with
          | some v => rfl
          | none => rfl
        rw [hd2, hcond]
        cases alookup r rules0 with
        | some v => rfl
        | none => rw [hnotify_p0_none]
      · rw [hncond_ne (dset p0 rules0 hist) p hpp (alookup_dset_ne rules0 hist hpp)]
        cases notifyCond ((p0, rules0) :: rest) hist p r with
        | some v => rfl
        | none => exact alookup2_congr_left (alookup_dset_ne rules0 notify hpp) r

end ClusterEmailAlerts

namespace ClusterEmailAlerts

theorem pqwhGo_hasKey :
    ∀ (qs : AlertQuotas) (notify : AlertQuotas) (hist : HistQ) (p : String),
    hasKey p (pqwhGo qs (notify, hist)).2 = (hasKey p qs || hasKey p hist) := by
  intro qs
  induction qs with
  | nil => intro notify hist p; simp [pqwhGo, hasKey, alookup]
  | cons e rest ih =>
    intro notify hist p
    obtain ⟨p0, rules0⟩ := e
    unfold pqwhGo
    by_cases hb : hasKey p0 hist = true
    · rw [if_pos hb]
      rcases hst : pqwhRulesGo p0 rules0
          ((if hasKey p0 notify then notify else dset p0 [] notify), hist) with ⟨n1, h1⟩
      dsimp only
      rw [hst, ih n1 h1 p]
      have hkeys := pqwhRulesGo_hasKey_hist p0 rules0
        (if hasKey p0 notify then notify else dset p0 [] notify) hist hb p
      rw [hst] at hkeys
      simp only at hkeys
      rw [hkeys]
      by_cases hpp : p = p0
      · subst hpp
        have hkc : hasKey p ((p, rules0) :: rest) = true := by
          unfold hasKey
          rw [alookup_cons_self]
          rfl
        rw [hkc, hb]
        simp
      · have hkc : hasKey p ((p0, rules0) :: rest) = hasKey p rest := by
          unfold hasKey
          rw [alookup_cons_ne rules0 rest hpp]
        rw [hkc]
    · rw [if_neg hb]
      rw [ih (dset p0 rules0 notify) (dset p0 rules0 hist) p]
      by_cases hpp : p = p0
      · subst hpp
        have hkd : hasKey p (dset p rules0 hist) = true := by
          unfold hasKey
          rw [alookup_dset_self]
          rfl
        have hkc : hasKey p ((p, rules0) :: rest) = true := by
          unfold hasKey
          rw [alookup_cons_self]
          rfl
        rw [hkd, hkc]
        simp
      · have hkd : hasKey p (dset p0 rules0 hist) = hasKey p hist := by
          unfold hasKey
          rw [alookup_dset_ne rules0 hist hpp]
        have hkc : hasKey p ((p0, rules0) :: rest) = hasKey p rest := by
          unfold hasKey
          rw [alookup_cons_ne rules0 rest hpp]
        rw [hkd, hkc]

/-- Lookup characterization of the notify_quotas output of
process_quotas_with_history against the initial history. -/
theorem pqwh_notify_lookup (aq : AlertQuotas) (hist : HistQ)
    (hq : NodupKeys aq) (hqi : ∀ e ∈ aq, NodupKeys e.2) (p r : String) :
    alookup2 (process_quotas_with_history aq hist).1 p r = notifyCond aq hist p r := by
  unfold process_quotas_with_history
  have h := pqwhGo_notify_lookup aq hq hqi [] hist
    (by intro q _; rfl) p r
  simp only at h ⊢
  rw [h]
  cases notifyCond aq hist p r with
  | some v => rfl
  | none => simp [alookup2, alookup]

/-- Lookup characterization of the updated history: after a full run the
history namespace holds exactly the currently alerting rule_infos. -/
theorem pqwh_hist_lookup (aq : AlertQuotas) (hist : HistQ)
    (hq : NodupKeys aq) (hqi : ∀ e ∈ aq, NodupKeys e.2) (p r : String) :
    alookup2 (process_quotas_with_history aq hist).2 p r = alookup2 aq p r := by
  unfold process_quotas_with_history
  simp only
  rcases hst : pqwhGo aq ([], hist) with ⟨n1, h1⟩
  rw [alookup2_pqwhCleanup]
  have h := pqwhGo_hist_lookup aq hq hqi [] hist p r
  rw [hst] at h
  simp only at h
  cases haq : alookup2 aq p r with
  | some v =>
    rw [haq] at h
    simp [h]
  | none => simp

/-- Key-level characterization of the updated history: exactly the
currently alerting quota paths are present. -/
theorem pqwh_hist_hasKey (aq : AlertQuotas) (hist : HistQ) (p : String) :
    hasKey p (process_quotas_with_history aq hist).2 = hasKey p aq := by
  unfold process_quotas_with_history
  simp only
  rcases hst : pqwhGo aq ([], hist) with ⟨n1, h1⟩
  rw [hasKey_pqwhCleanup]
  have h := pqwhGo_hasKey aq [] hist p
  rw [hst] at h
  simp only at h
  rw [h]
  cases hk : hasKey p aq <;> simp

end ClusterEmailAlerts

namespace ClusterEmailAlerts

/-- C2: with a history entry present for a target and rule, a run notifies
only on strict escalation.  For quotas the notify output carries the newly
computed rule_info and its alert_threshold strictly exceeds the recorded
one; for capacity an alert with an existing entry forces a strictly larger
exceeded threshold; for replication an existing entry suppresses the alert
outright. -/
theorem C2_notify_only_on_escalation :
    (∀ (aq : AlertQuotas) (hist : HistQ) (p r : String) (old new : AlertInfo),
      NodupKeys aq → (∀ e ∈ aq, NodupKeys e.2) →
      alookup2 hist p r = some old →
      alookup2 (process_quotas_with_history aq hist).1 p r = some new →
      alookup2 aq p r = some new ∧
        old.alert_threshold < new.alert_threshold) ∧
    (∀ rn (ri : CapRule) pct hist old, alookup rn hist = some old →
      (cluster_capacity_process_rule rn ri pct hist).1 = true →
      ∃ t, exceededThresholdFold pct ri.thresholds = some t ∧ old < t) ∧
    (∀ rn (ri : RepRule) errs hist, hasKey rn hist = true →
      (replication_process_rules rn ri errs hist).1 = false) := by
  refine ⟨fun aq hist p r old new hq hqi hold hnew => ?_,
    fun rn ri pct hist old halo hsend => ?_, fun rn ri errs hist hk => ?_⟩
  · rw [pqwh_notify_lookup aq hist hq hqi p r] at hnew
    unfold notifyCond at hnew
    unfold alookup2 at hold
    cases hhp : alookup p hist with
    | none => rw [hhp] at hold; simp at hold
    | some hr =>
      rw [hhp] at hold
      simp only [Option.some_bind] at hold
      rw [hhp] at hnew
      cases haq : alookup2 aq p r with
      | none => rw [haq] at hnew; simp at hnew
      | some v =>
        rw [haq] at hnew
        dsimp only at hnew
        rw [hold] at hnew
        dsimp only at hnew
        by_cases hlt : old.alert_threshold < v.alert_threshold
        · rw [if_pos hlt] at hnew
          simp only [Option.some.injEq] at hnew
          subst hnew
          exact ⟨rfl, hlt⟩
        · rw [if_neg hlt] at hnew
          simp at hnew
  · unfold cluster_capacity_process_rule at hsend
    cases hex : exceededThresholdFold pct ri.thresholds with
    | none => rw [hex] at hsend; simp at hsend
    | some t =>
      rw [hex] at hsend
      simp only at hsend
      by_cases ht : t ≠ 0
      · rw [if_pos ht, halo] at hsend
        simp only at hsend
        by_cases hlt : old < t
        · exact ⟨t, rfl, hlt⟩
        · rw [if_neg hlt] at hsend
          simp at hsend
      · rw [if_neg ht] at hsend
        simp at hsend
  · obtain ⟨v, hv⟩ := Option.isSome_iff_exists.mp hk
    unfold replication_process_rules
    by_cases he : errs.isEmpty
    · simp [he]
    · simp [he, hv]

/-- Concrete data for the C2 witness: an escalation from threshold 50 to
threshold 90 on one quota path. -/
def c2OldInfo : AlertInfo := ⟨[50, 90], ["ops"], "", false, 50, 85, "u", "l"⟩

def c2NewInfo : AlertInfo := ⟨[50, 90], ["ops"], "", false, 90, 95, "u", "l"⟩

def c2Alert : AlertQuotas := [("/p", [("r", c2NewInfo)])]

def c2Hist : HistQ := [("/p", [("r", c2OldInfo)])]

/-- Witness for C2 on concrete escalation data. -/
theorem C2_notify_only_on_escalation_witness :
    NodupKeys c2Alert ∧ (∀ e ∈ c2Alert, NodupKeys e.2) ∧
    alookup2 c2Hist "/p" "r" = some c2OldInfo ∧
    alookup2 (process_quotas_with_history c2Alert c2Hist).1 "/p" "r" =
      some c2NewInfo ∧
    alookup2 c2Alert "/p" "r" = some c2NewInfo ∧
    c2OldInfo.alert_threshold < c2NewInfo.alert_threshold := by
  have h1 : NodupKeys c2Alert := by decide
  have h2 : ∀ e ∈ c2Alert, NodupKeys e.2 := by decide
  have h3 : alookup2 c2Hist "/p" "r" = some c2OldInfo := by decide
  have h4 : alookup2 (process_quotas_with_history c2Alert c2Hist).1 "/p" "r" =
      some c2NewInfo := by decide
  obtain ⟨ha, hb⟩ := C2_notify_only_on_escalation.1 c2Alert c2Hist "/p" "r"
    c2OldInfo c2NewInfo h1 h2 h3 h4
  exact ⟨h1, h2, h3, h4, ha, hb⟩

/-- C5 (amended): on a suppressed repeat the quota family refreshes the
history entry to the newly computed rule_info and does not notify, while
the capacity family leaves the recorded entry untouched and does not
notify. -/
theorem C5_suppressed_repeat_refresh :
    (∀ (aq : AlertQuotas) (hist : HistQ) (p r : String) (old new : AlertInfo),
      NodupKeys aq → (∀ e ∈ aq, NodupKeys e.2) →
      alookup2 hist p r = some old →
      alookup2 aq p r = some new →
      ¬ old.alert_threshold < new.alert_threshold →
      alookup2 (process_quotas_with_history aq hist).1 p r = none ∧
      alookup2 (process_quotas_with_history aq hist).2 p r = some new) ∧
    (∀ rn (ri : CapRule) pct hist old t, alookup rn hist = some old →
      exceededThresholdFold pct ri.thresholds = some t → t ≠ 0 → ¬ old < t →
      (cluster_capacity_process_rule rn ri pct hist).1 = false ∧
      (cluster_capacity_process_rule rn ri pct hist).2.2 = hist) := by
  refine ⟨fun aq hist p r old new hq hqi hold hnew hle => ?_,
    fun rn ri pct hist old t halo hex ht hlt => ?_⟩
  · constructor
    · rw [pqwh_notify_lookup aq hist hq hqi p r]
      unfold notifyCond
      unfold alookup2 at hold
      cases hhp : alookup p hist with
      | none => rw [hhp] at hold; simp at hold
      | some hr =>
        rw [hhp] at hold
        simp only [Option.some_bind] at hold
        rw [hnew]
        dsimp only
        rw [hold]
        dsimp only
        rw [if_neg hle]
    · rw [pqwh_hist_lookup aq hist hq hqi p r]
      exact hnew
  · unfold cluster_capacity_process_rule
    rw [hex]
    simp only
    rw [if_pos ht, halo]
    simp only
    rw [if_neg hlt]
    exact ⟨rfl, rfl⟩

/-- Concrete data for the C5 witness: an unchanged quota alert at
threshold 90. -/
def c5Info : AlertInfo := ⟨[90], ["ops"], "", false, 90, 95, "u", "l"⟩

def c5Alert : AlertQuotas := [("/p", [("r", c5Info)])]

/-- Witness for C5: the suppressed-repeat hypotheses hold on concrete data
for both the quota clause and the capacity clause. -/
theorem C5_suppressed_repeat_refresh_witness :
    (NodupKeys c5Alert ∧ alookup2 c5Alert "/p" "r" = some c5Info ∧
      alookup2 (process_quotas_with_history c5Alert c5Alert).1 "/p" "r" = none ∧
      alookup2 (process_quotas_with_history c5Alert c5Alert).2 "/p" "r" =
        some c5Info) ∧
    (alookup "r" [("r", (95 : ℚ))] = some 95 ∧
      exceededThresholdFold 91 [(90 : ℚ), 95] = some 90 ∧
      (cluster_capacity_process_rule "r" ⟨[90, 95], ["ops"], ""⟩ 91
        [("r", 95)]).1 = false ∧
      (cluster_capacity_process_rule "r" ⟨[90, 95], ["ops"], ""⟩ 91
        [("r", 95)]).2.2 = [("r", 95)]) := by
  constructor
  · have h1 : NodupKeys c5Alert := by decide
    have h2 : ∀ e ∈ c5Alert, NodupKeys e.2 := by decide
    have h3 : alookup2 c5Alert "/p" "r" = some c5Info := by decide
    have h4 : ¬ c5Info.alert_threshold < c5Info.alert_threshold := by decide
    obtain ⟨ha, hb⟩ := C5_suppressed_repeat_refresh.1 c5Alert c5Alert "/p" "r"
      c5Info c5Info h1 h2 h3 h3 h4
    exact ⟨h1, h3, ha, hb⟩
  · have h1 : alookup "r" [("r", (95 : ℚ))] = some 95 := by decide
    have h2 : exceededThresholdFold 91 [(90 : ℚ), 95] = some 90 := by decide
    have h3 : (90 : ℚ) ≠ 0 := by decide
    have h4 : ¬ (95 : ℚ) < 90 := by decide
    obtain ⟨ha, hb⟩ := C5_suppressed_repeat_refresh.2 "r" ⟨[90, 95], ["ops"], ""⟩
      91 [("r", 95)] 95 90 h1 h2 h3 h4
    exact ⟨h1, h2, ha, hb⟩

/-- Counterexample to C5 as stated: for the capacity family a suppressed
repeat does NOT update the entry to the current value.  With recorded
threshold 95 and current exceeded threshold 90 the entry stays at 95. -/
theorem C5_capacity_no_refresh_counterexample :
    cluster_capacity_process_rule "r" ⟨[90, 95], ["ops"], ""⟩ 91 [("r", 95)] =
      (false, some 90, [("r", (95 : ℚ))]) ∧
    (95 : ℚ) ≠ 90 := by
  constructor
  · decide
  · decide

end ClusterEmailAlerts

namespace ClusterEmailAlerts

/-! ### Per-key semantics of the capacity and replication rule loops -/

/-- Effect of one cluster_capacity_process_rule call on its own
history entry, as a function of the previously stored value. -/
def capEntryStep (ri : CapRule) (pct : ℚ) (old : Option ℚ) : Option ℚ :=
  match exceededThresholdFold pct ri.thresholds with
  | some t =>
    if t ≠ 0 then
      match old with
      | some o => if o < t then some t else some o
      | none => some t
    else none
  | none => none

/-- Whether one cluster_capacity_process_rule call sends an alert, as a
function of the previously stored value. -/
def capSendStep (ri : CapRule) (pct : ℚ) (old : Option ℚ) : Bool :=
  match exceededThresholdFold pct ri.thresholds with
  | some t =>
    if t ≠ 0 then
      match old with
      | some o => decide (o < t)
      | none => true
    else false
  | none => false

theorem ccpr_lookup_self (rn : String) (ri : CapRule) (pct : ℚ) (hist : HistC) :
    alookup rn (cluster_capacity_process_rule rn ri pct hist).2.2 =
      capEntryStep ri pct (alookup rn hist) := by
  unfold cluster_capacity_process_rule capEntryStep
  cases hex : exceededThresholdFold pct ri.thresholds with
  | none => exact alookup_ddel_self rn hist
  | some t =>
    dsimp only
    by_cases ht : t ≠ 0
    · rw [if_pos ht, if_pos ht]
      cases halo : alookup rn hist with
      | some o =>
        dsimp only
        by_cases hlt : o < t
        · rw [if_pos hlt, if_pos hlt]
          exact alookup_dset_self rn t hist
        · rw [if_neg hlt, if_neg hlt]
          exact halo
      | none => exact alookup_dset_self rn t hist
    · rw [if_neg ht, if_neg ht]
      exact alookup_ddel_self rn hist

theorem ccpr_lookup_other (rn : String) (ri : CapRule) (pct : ℚ) (hist : HistC)
    {q : String} (hq : q ≠ rn) :
    alookup q (cluster_capacity_process_rule rn ri pct hist).2.2 =
      alookup q hist := by
  unfold cluster_capacity_process_rule
  cases hex : exceededThresholdFold pct ri.thresholds with
  | none => exact alookup_ddel_ne hist hq
  | some t =>
    dsimp only
    by_cases ht : t ≠ 0
    · rw [if_pos ht]
      cases halo : alookup rn hist with
      | some o =>
        dsimp only
        by_cases hlt : o < t
        · rw [if_pos hlt]
          exact alookup_dset_ne _ hist hq
        · rw [if_neg hlt]
      | none => exact alookup_dset_ne _ hist hq
    · rw [if_neg ht]
      exact alookup_ddel_ne hist hq

theorem ccpr_send (rn : String) (ri : CapRule) (pct : ℚ) (hist : HistC) :
    (cluster_capacity_process_rule rn ri pct hist).1 =
      capSendStep ri pct (alookup rn hist) := by
  unfold cluster_capacity_process_rule capSendStep
  cases hex : exceededThresholdFold pct ri.thresholds with
  | none => rfl
  | some t =>
    dsimp only
    by_cases ht : t ≠ 0
    · rw [if_pos ht, if_pos ht]
      cases halo : alookup rn hist with
      | some o =>
        dsimp only
        by_cases hlt : o < t
        · rw [if_pos hlt]
          simp [hlt]
        · rw [if_neg hlt]
          simp [hlt]
      | none => rfl
    · rw [if_neg ht, if_neg ht]

theorem capSendStep_of_entry (ri : CapRule) (pct : ℚ) (old : Option ℚ) :
    capSendStep ri pct (capEntryStep ri pct old) = false := by
  unfold capSendStep capEntryStep
  cases hex : exceededThresholdFold pct ri.thresholds with
  | none => rfl
  | some t =>
    dsimp only
    by_cases ht : t ≠ 0
    · rw [if_pos ht, if_pos ht]
      cases old with
      | some o =>
        dsimp only
        by_cases hlt : o < t
        · rw [if_pos hlt]
          simp
        · rw [if_neg hlt]
          simp [hlt]
      | none =>
        dsimp only
        simp
    · rw [if_neg ht]

theorem cap_core_lookup_unconfigured :
    ∀ (rules : List (String × CapRule)) (pct : ℚ) (hist : HistC) (rn : String),
    hasKey rn rules = false →
    alookup rn (cluster_capacity_check_core rules pct hist).2 = alookup rn hist := by
  intro rules
  induction rules with
  | nil => intro pct hist rn _; rfl
  | cons e rest ih =>
    intro pct hist rn hk
    obtain ⟨q0, ri0⟩ := e
    have hne : rn ≠ q0 := by
      intro he
      subst he
      unfold hasKey at hk
      rw [alookup_cons_self] at hk
      simp at hk
    have hk' : hasKey rn rest = false := by
      unfold hasKey at hk ⊢
      rwa [alookup_cons_ne ri0 rest hne] at hk
    unfold cluster_capacity_check_core
    simp only
    rw [ih pct _ rn hk', ccpr_lookup_other q0 ri0 pct hist hne]

theorem cap_core_entry :
    ∀ (rules : List (String × CapRule)), NodupKeys rules →
    ∀ (pct : ℚ) (hist : HistC) (rn : String) (ri : CapRule), (rn, ri) ∈ rules →
    alookup rn (cluster_capacity_check_core rules pct hist).2 =
      capEntryStep ri pct (alookup rn hist) := by
  intro rules
  induction rules with
  | nil => intro _ pct hist rn ri hmem; simp at hmem
  | cons e rest ih =>
    intro hnd pct hist rn ri hmem
    obtain ⟨q0, ri0⟩ := e
    have hcons0 : (q0 :: keysOf rest).Nodup := hnd
    have hnd' : NodupKeys rest := (List.nodup_cons.mp hcons0).2
    have hq0 : q0 ∉ keysOf rest := (List.nodup_cons.mp hcons0).1
    unfold cluster_capacity_check_core
    simp only
    rcases List.mem_cons.mp hmem with hh | hh
    · have h1 : rn = q0 := congrArg Prod.fst hh
      have h2 : ri = ri0 := congrArg Prod.snd hh
      subst h1
      subst h2
      have hrest : hasKey rn rest = false := by
        unfold hasKey
        rw [alookup_eq_none_of_not_mem_keys hq0]
        rfl
      rw [cap_core_lookup_unconfigured rest pct _ rn hrest]
      exact ccpr_lookup_self rn ri pct hist
    · have hne : rn ≠ q0 := by
        intro he
        subst he
        exact hq0 (List.mem_map.mpr ⟨(rn, ri), hh, rfl⟩)
      rw [ih hnd' pct _ rn ri hh, ccpr_lookup_other q0 ri0 pct hist hne]

theorem cap_core_no_alerts :
    ∀ (rules : List (String × CapRule)), NodupKeys rules →
    ∀ (pct : ℚ) (hist : HistC),
    (∀ rn ri, (rn, ri) ∈ rules → capSendStep ri pct (alookup rn hist) = false) →
    (cluster_capacity_check_core rules pct hist).1 = [] := by
  intro rules
  induction rules with
  | nil => intro _ pct hist _; rfl
  | cons e rest ih =>
    intro hnd pct hist hsend
    obtain ⟨q0, ri0⟩ := e
    have hcons0 : (q0 :: keysOf rest).Nodup := hnd
    have hnd' : NodupKeys rest := (List.nodup_cons.mp hcons0).2
    have hq0 : q0 ∉ keysOf rest := (List.nodup_cons.mp hcons0).1
    unfold cluster_capacity_check_core
    simp only
    have hs0 : (cluster_capacity_process_rule q0 ri0 pct hist).1 = false := by
      rw [ccpr_send]
      exact hsend q0 ri0 (List.mem_cons_self _ _)
    rw [hs0]
    simp only [if_false, Bool.false_eq_true]
    apply ih hnd' pct _
    intro rn ri hmem
    have hne : rn ≠ q0 := by
      intro he
      subst he
      exact hq0 (List.mem_map.mpr ⟨(rn, ri), hmem, rfl⟩)
    rw [ccpr_lookup_other q0 ri0 pct hist hne]
    exact hsend rn ri (List.mem_cons_of_mem _ hmem)

end ClusterEmailAlerts

namespace ClusterEmailAlerts

/-- Effect of one replication_process_rules call on its own history entry,
as a function of the previously stored value. -/
def repEntryStep (ri : RepRule) (errs : List Relationship) (old : Option RepRule) :
    Option RepRule :=
  if ¬ errs.isEmpty then
    match old with
    | none => some ri
    | some x => some x
  else none

/-- Whether one replication_process_rules call sends an alert, as a
function of the previously stored value. -/
def repSendStep (errs : List Relationship) (old : Option RepRule) : Bool :=
  if ¬ errs.isEmpty then
    match old with
    | none => true
    | some _ => false
  else false

theorem rpr_lookup_self (rn : String) (ri : RepRule) (errs : List Relationship)
    (hist : HistR) :
    alookup rn (replication_process_rules rn ri errs hist).2 =
      repEntryStep ri errs (alookup rn hist) := by
  unfold replication_process_rules repEntryStep
  by_cases he : errs.isEmpty
  · rw [if_neg (by simp [he]), if_neg (by simp [he])]
    exact alookup_ddel_self rn hist
  · rw [if_pos (by simp [he]), if_pos (by simp [he])]
    cases halo : alookup rn hist with
    | none => exact alookup_dset_self rn ri hist
    | some x => exact halo

theorem rpr_lookup_other (rn : String) (ri : RepRule) (errs : List Relationship)
    (hist : HistR) {q : String} (hq : q ≠ rn) :
    alookup q (replication_process_rules rn ri errs hist).2 = alookup q hist := by
  unfold replication_process_rules
  by_cases he : errs.isEmpty
  · rw [if_neg (by simp [he])]
    exact alookup_ddel_ne hist hq
  · rw [if_pos (by simp [he])]
    cases halo : alookup rn hist with
    | none => exact alookup_dset_ne _ hist hq
    | some x => rfl

theorem rpr_send (rn : String) (ri : RepRule) (errs : List Relationship)
    (hist : HistR) :
    (replication_process_rules rn ri errs hist).1 =
      repSendStep errs (alookup rn hist) := by
  unfold replication_process_rules repSendStep
  by_cases he : errs.isEmpty
  · rw [if_neg (by simp [he]), if_neg (by simp [he])]
  · rw [if_pos (by simp [he]), if_pos (by simp [he])]
    cases halo : alookup rn hist with
    | none => rfl
    | some x => rfl

theorem repSendStep_of_entry (ri : RepRule) (errs : List Relationship)
    (old : Option RepRule) :
    repSendStep errs (repEntryStep ri errs old) = false := by
  unfold repSendStep repEntryStep
  by_cases he : errs.isEmpty
  · rw [if_neg (show ¬ ¬ errs.isEmpty = true by simp [he])]
  · rw [if_pos (by simp [he]), if_pos (by simp [he])]
    cases old with
    | none => rfl
    | some x => rfl

theorem rep_core_lookup_unconfigured :
    ∀ (rules : List (String × RepRule)) (errs : List Relationship) (hist : HistR)
    (rn : String), hasKey rn rules = false →
    alookup rn (replication_check_core rules errs hist).2 = alookup rn hist := by
  intro rules
  induction rules with
  | nil => intro errs hist rn _; rfl
  | cons e rest ih =>
    intro errs hist rn hk
    obtain ⟨q0, ri0⟩ := e
    have hne : rn ≠ q0 := by
      intro he
      subst he
      unfold hasKey at hk
      rw [alookup_cons_self] at hk
      simp at hk
    have hk' : hasKey rn rest = false := by
      unfold hasKey at hk ⊢
      rwa [alookup_cons_ne ri0 rest hne] at hk
    unfold replication_check_core
    simp only
    rw [ih errs _ rn hk', rpr_lookup_other q0 ri0 errs hist hne]

theorem rep_core_entry :
    ∀ (rules : List (String × RepRule)), NodupKeys rules →
    ∀ (errs : List Relationship) (hist : HistR) (rn : String) (ri : RepRule),
    (rn, ri) ∈ rules →
    alookup rn (replication_check_core rules errs hist).2 =
      repEntryStep ri errs (alookup rn hist) := by
  intro rules
  induction rules with
  | nil => intro _ errs hist rn ri hmem; simp at hmem
  | cons e rest ih =>
    intro hnd errs hist rn ri hmem
    obtain ⟨q0, ri0⟩ := e
    have hcons0 : (q0 :: keysOf rest).Nodup := hnd
    have hnd' : NodupKeys rest := (List.nodup_cons.mp hcons0).2
    have hq0 : q0 ∉ keysOf rest := (List.nodup_cons.mp hcons0).1
    unfold replication_check_core
    simp only
    rcases List.mem_cons.mp hmem with hh | hh
    · have h1 : rn = q0 := congrArg Prod.fst hh
      have h2 : ri = ri0 := congrArg Prod.snd hh
      subst h1
      subst h2
      have hrest : hasKey rn rest = false := by
        unfold hasKey
        rw [alookup_eq_none_of_not_mem_keys hq0]
        rfl
      rw [rep_core_lookup_unconfigured rest errs _ rn hrest]
      exact rpr_lookup_self rn ri errs hist
    · have hne : rn ≠ q0 := by
        intro he
        subst he
        exact hq0 (List.mem_map.mpr ⟨(rn, ri), hh, rfl⟩)
      rw [ih hnd' errs _ rn ri hh, rpr_lookup_other q0 ri0 errs hist hne]

theorem rep_core_no_alerts :
    ∀ (rules : List (String × RepRule)), NodupKeys rules →
    ∀ (errs : List Relationship) (hist : HistR),
    (∀ rn ri, (rn, ri) ∈ rules → repSendStep errs (alookup rn hist) = false) →
    (replication_check_core rules errs hist).1 = [] := by
  intro rules
  induction rules with
  | nil => intro _ errs hist _; rfl
  | cons e rest ih =>
    intro hnd errs hist hsend
    obtain ⟨q0, ri0⟩ := e
    have hcons0 : (q0 :: keysOf rest).Nodup := hnd
    have hnd' : NodupKeys rest := (List.nodup_cons.mp hcons0).2
    have hq0 : q0 ∉ keysOf rest := (List.nodup_cons.mp hcons0).1
    unfold replication_check_core
    simp only
    have hs0 : (replication_process_rules q0 ri0 errs hist).1 = false := by
      rw [rpr_send]
      exact hsend q0 ri0 (List.mem_cons_self _ _)
    rw [hs0]
    simp only [if_false, Bool.false_eq_true]
    apply ih hnd' errs _
    intro rn ri hmem
    have hne : rn ≠ q0 := by
      intro he
      subst he
      exact hq0 (List.mem_map.mpr ⟨(rn, ri), hmem, rfl⟩)
    rw [rpr_lookup_other q0 ri0 errs hist hne]
    exact hsend rn ri (List.mem_cons_of_mem _ hmem)

end ClusterEmailAlerts

namespace ClusterEmailAlerts

theorem alertThresholdFold_cases (pct : ℚ) (ts : List ℚ) :
    ∀ acc : ℚ, ts.foldl (fun acc t => if pct > t then t else acc) acc = acc ∨
      pct > ts.foldl (fun acc t => if pct > t then t else acc) acc := by
  induction ts with
  | nil => intro acc; exact Or.inl rfl
  | cons t rest ih =>
    intro acc
    simp only [List.foldl_cons]
    by_cases h : pct > t
    · rw [if_pos h]
      rcases ih t with hc | hc
      · rw [hc]; exact Or.inr h
      · exact Or.inr hc
    · rw [if_neg h]
      exact ih acc

theorem alertThresholdFold_pos_lt (pct : ℚ) (ts : List ℚ)
    (h : alertThresholdFold pct ts ≠ 0) : alertThresholdFold pct ts < pct := by
  unfold alertThresholdFold at h ⊢
  rcases alertThresholdFold_cases pct ts 0 with hc | hc
  · exact absurd hc h
  · exact hc

theorem checkQuotaRules_info_props (pct : ℚ) (qu ql : String) :
    ∀ (rules : List (String × QuotaRule)),
    ∀ rv ∈ (checkQuotaRules pct qu ql rules).2,
    0 < rv.2.alert_threshold ∧ rv.2.alert_threshold < rv.2.pct_used := by
  intro rules
  induction rules with
  | nil => intro rv hv; simp [checkQuotaRules] at hv
  | cons e rest ih =>
    intro rv hv
    obtain ⟨rn0, rule0⟩ := e
    unfold checkQuotaRules at hv
    simp only at hv
    unfold checkQuotaRule at hv
    by_cases hpos : 0 < alertThresholdFold pct rule0.thresholds
    · rw [if_pos hpos] at hv
      simp only at hv
      rcases List.mem_cons.mp hv with hh | hh
      · subst hh
        refine ⟨hpos, ?_⟩
        exact alertThresholdFold_pos_lt pct rule0.thresholds (ne_of_gt hpos)
      · exact ih rv hh
    · rw [if_neg hpos] at hv
      simp only at hv
      exact ih rv hv

theorem get_alerting_quotas_info_props :
    ∀ (qs : List (String × QuotaStatus)) (ws : List String) (aq : AlertQuotas),
    get_alerting_quotas qs = some (ws, aq) →
    ∀ e ∈ aq, ∀ rv ∈ e.2,
    0 < rv.2.alert_threshold ∧ rv.2.alert_threshold < rv.2.pct_used := by
  intro qs
  induction qs with
  | nil =>
    intro ws aq h e he
    unfold get_alerting_quotas at h
    simp only [Option.some.injEq] at h
    have : aq = [] := congrArg Prod.snd h.symm
    subst this
    simp at he
  | cons q rest ih =>
    intro ws aq h e he rv hv
    obtain ⟨path, qst⟩ := q
    unfold get_alerting_quotas at h
    by_cases hz : (qst.limit : ℚ) = 0
    · rw [if_pos hz] at h; simp at h
    · rw [if_neg hz] at h
      cases hrec : get_alerting_quotas rest with
      | none => rw [hrec] at h; simp at h
      | some p =>
        obtain ⟨ws', aqs⟩ := p
        rw [hrec] at h
        simp only [Option.some.injEq] at h
        have haq : aq = (if (checkQuotaRules
            (pyRound2 ((qst.capacity_usage : ℚ) / (qst.limit : ℚ) * 100))
            (humanize_bytes (qst.capacity_usage : ℚ))
            (humanize_bytes (qst.limit : ℚ)) qst.rules).2.isEmpty then aqs
          else (path, (checkQuotaRules
            (pyRound2 ((qst.capacity_usage : ℚ) / (qst.limit : ℚ) * 100))
            (humanize_bytes (qst.capacity_usage : ℚ))
            (humanize_bytes (qst.limit : ℚ)) qst.rules).2) :: aqs) :=
          (congrArg Prod.snd h).symm
        by_cases hemp : (checkQuotaRules
            (pyRound2 ((qst.capacity_usage : ℚ) / (qst.limit : ℚ) * 100))
            (humanize_bytes (qst.capacity_usage : ℚ))
            (humanize_bytes (qst.limit : ℚ)) qst.rules).2.isEmpty
        · rw [if_pos hemp] at haq
          rw [haq] at he
          exact ih ws' aqs hrec e he rv hv
        · rw [if_neg hemp] at haq
          rw [haq] at he
          rcases List.mem_cons.mp he with hh | hh
          · subst hh
            exact checkQuotaRules_info_props _ _ _ qst.rules rv hv
          · exact ih ws' aqs hrec e hh rv hv

theorem mem_dset {α : Type} {e : String × α} {k : String} {v : α}
    {m : List (String × α)} (h : e ∈ dset k v m) : e = (k, v) ∨ e ∈ m := by
  induction m with
  | nil => simpa [dset] using h
  | cons e' rest ih =>
    obtain ⟨k', v'⟩ := e'
    unfold dset at h
    by_cases hk : k' = k
    · rw [if_pos hk] at h
      rcases List.mem_cons.mp h with hh | hh
      · exact Or.inl hh
      · exact Or.inr (List.mem_cons_of_mem _ hh)
    · rw [if_neg hk] at h
      rcases List.mem_cons.mp h with hh | hh
      · exact Or.inr (hh ▸ List.mem_cons_self _ _)
      · rcases ih hh with hc | hc
        · exact Or.inl hc
        · exact Or.inr (List.mem_cons_of_mem _ hc)

theorem dset2_of_alookup2_eq {α : Type} {p r : String} {v : α}
    {m : List (String × List (String × α))} (h : alookup2 m p r = some v) :
    dset2 p r v m = m := by
  unfold alookup2 at h
  cases hp : alookup p m with
  | none => rw [hp] at h; simp at h
  | some hr =>
    rw [hp] at h
    simp only [Option.some_bind] at h
    unfold dset2
    rw [hp]
    simp only [Option.getD_some]
    rw [dset_of_alookup_eq h, dset_of_alookup_eq hp]

theorem pqwhRulesGo_fixpoint (path : String) :
    ∀ (rs : List (String × AlertInfo)) (notify : AlertQuotas) (hist : HistQ),
    (∀ rv ∈ rs, alookup2 hist path rv.1 = some rv.2) →
    pqwhRulesGo path rs (notify, hist) = (notify, hist) := by
  intro rs
  induction rs with
  | nil => intro notify hist _; rfl
  | cons rv rest ih =>
    intro notify hist hhyp
    obtain ⟨r0, v0⟩ := rv
    have h0 : alookup2 hist path r0 = some v0 := hhyp (r0, v0) (List.mem_cons_self _ _)
    unfold pqwhRulesGo
    have hsc : ((alookup path hist).bind fun inner => alookup r0 inner) = some v0 := h0
    rw [hsc]
    dsimp only
    rw [if_neg (lt_irrefl v0.alert_threshold)]
    rw [dset2_of_alookup2_eq h0]
    exact ih notify hist (fun rv hv => hhyp rv (List.mem_cons_of_mem _ hv))

theorem pqwhGo_silent :
    ∀ (qs : AlertQuotas) (notify : AlertQuotas) (hist : HistQ),
    (∀ e ∈ qs, hasKey e.1 hist = true ∧
      ∀ rv ∈ e.2, alookup2 hist e.1 rv.1 = some rv.2) →
    (∀ e ∈ notify, e.2 = ([] : List (String × AlertInfo))) →
    ∀ e ∈ (pqwhGo qs (notify, hist)).1, e.2 = ([] : List (String × AlertInfo)) := by
  intro qs
  induction qs with
  | nil => intro notify hist _ hn e he; exact hn e he
  | cons q rest ih =>
    intro notify hist hhyp hn e he
    obtain ⟨p0, rules0⟩ := q
    have h0 := hhyp (p0, rules0) (List.mem_cons_self _ _)
    unfold pqwhGo at he
    rw [if_pos h0.1] at he
    dsimp only at he
    rw [pqwhRulesGo_fixpoint p0 rules0 _ hist h0.2] at he
    refine ih _ hist (fun e' he' => hhyp e' (List.mem_cons_of_mem _ he')) ?_ e he
    intro e' he'
    by_cases hkn : hasKey p0 notify = true
    · rw [if_pos hkn] at he'
      exact hn e' he'
    · rw [if_neg hkn] at he'
      rcases mem_dset he' with hh | hh
      · rw [hh]
      · exact hn e' hh

theorem notifyCount_eq_zero {n : AlertQuotas}
    (h : ∀ e ∈ n, e.2 = ([] : List (String × AlertInfo))) : notifyCount n = 0 := by
  unfold notifyCount
  apply List.sum_eq_zero
  intro x hx
  obtain ⟨e, he, hex⟩ := List.mem_map.mp hx
  rw [← hex, h e he]
  rfl

end ClusterEmailAlerts

namespace ClusterEmailAlerts

/-- C3 (amended): after a quota run the history retains exactly the
currently alerting (path, rule) entries, which all exceed a positive
threshold, even for rules gone from the configuration.  For capacity and
replication, cleanup applies only to rules present in the current
configuration: a retained entry for a configured rule corresponds to an
active condition, but the entry of a rule that no longer appears in the
configuration is retained unchanged. -/
theorem C3_history_only_active :
    (∀ (qs : List (String × QuotaStatus)) (ws : List String) (aq : AlertQuotas)
      (hist : HistQ) (p r : String) (info : AlertInfo),
      get_alerting_quotas qs = some (ws, aq) →
      NodupKeys aq → (∀ e ∈ aq, NodupKeys e.2) →
      alookup2 (process_quotas_with_history aq hist).2 p r = some info →
      alookup2 aq p r = some info ∧ 0 < info.alert_threshold ∧
        info.alert_threshold < info.pct_used) ∧
    (∀ (rules : List (String × CapRule)) (pct : ℚ) (hist : HistC) (rn : String),
      NodupKeys rules →
      (hasKey rn rules = false →
        alookup rn (cluster_capacity_check_core rules pct hist).2 =
          alookup rn hist) ∧
      (∀ ri t, (rn, ri) ∈ rules →
        alookup rn (cluster_capacity_check_core rules pct hist).2 = some t →
        truthyOpt (exceededThresholdFold pct ri.thresholds) = true)) ∧
    (∀ (rules : List (String × RepRule)) (errs : List Relationship) (hist : HistR)
      (rn : String), NodupKeys rules →
      (hasKey rn rules = false →
        alookup rn (replication_check_core rules errs hist).2 = alookup rn hist) ∧
      (∀ ri, (rn, ri) ∈ rules →
        hasKey rn (replication_check_core rules errs hist).2 = true →
        errs ≠ [])) := by
  refine ⟨fun qs ws aq hist p r info hgaq hq hqi hlook => ?_,
    fun rules pct hist rn hnd => ⟨fun hk => cap_core_lookup_unconfigured rules pct hist rn hk,
      fun ri t hmem hlook => ?_⟩,
    fun rules errs hist rn hnd => ⟨fun hk => rep_core_lookup_unconfigured rules errs hist rn hk,
      fun ri hmem hk => ?_⟩⟩
  · rw [pqwh_hist_lookup aq hist hq hqi p r] at hlook
    refine ⟨hlook, ?_⟩
    unfold alookup2 at hlook
    cases hp : alookup p aq with
    | none => rw [hp] at hlook; simp at hlook
    | some rules =>
      rw [hp] at hlook
      simp only [Option.some_bind] at hlook
      exact get_alerting_quotas_info_props qs ws aq hgaq (p, rules)
        (mem_of_alookup_eq_some hp) (r, info) (mem_of_alookup_eq_some hlook)
  · rw [cap_core_entry rules hnd pct hist rn ri hmem] at hlook
    unfold capEntryStep at hlook
    cases hex : exceededThresholdFold pct ri.thresholds with
    | none => rw [hex] at hlook; simp at hlook
    | some t' =>
      rw [hex] at hlook
      dsimp only at hlook
      by_cases ht : t' ≠ 0
      · unfold truthyOpt
        simp [ht]
      · rw [if_neg ht] at hlook
        simp at hlook
  · rw [show hasKey rn (replication_check_core rules errs hist).2 =
        (alookup rn (replication_check_core rules errs hist).2).isSome from rfl,
      rep_core_entry rules hnd errs hist rn ri hmem] at hk
    unfold repEntryStep at hk
    by_cases he : errs.isEmpty
    · rw [if_neg (by simp [he])] at hk
      simp at hk
    · intro hcon
      subst hcon
      simp at he

/-- Witness for C3: one alerting quota at 91% of its limit against a
90% rule, run against an empty history; and a configured capacity rule
whose entry is retained. -/
theorem C3_history_only_active_witness :
    (get_alerting_quotas [("/p", ⟨91, 100, [("r", ⟨[90], ["ops"], "", false⟩)]⟩)] =
      some ([], [("/p", [("r", ⟨[90], ["ops"], "", false, 90, 91, "91.0B", "100.0B"⟩)])]) ∧
      alookup2 (process_quotas_with_history
          [("/p", [("r", ⟨[90], ["ops"], "", false, 90, 91, "91.0B", "100.0B"⟩)])]
          []).2 "/p" "r" =
        some ⟨[90], ["ops"], "", false, 90, 91, "91.0B", "100.0B"⟩ ∧
      (0 : ℚ) < 90 ∧ (90 : ℚ) < 91) ∧
    ((("r", CapRule.mk [90] ["ops"] "") ∈ [("r", CapRule.mk [90] ["ops"] "")]) ∧
      alookup "r" (cluster_capacity_check_core
        [("r", CapRule.mk [90] ["ops"] "")] 95 []).2 = some 90 ∧
      truthyOpt (exceededThresholdFold 95 [(90 : ℚ)]) = true) := by
  constructor
  · have hgaq : get_alerting_quotas
        [("/p", ⟨91, 100, [("r", ⟨[90], ["ops"], "", false⟩)]⟩)] =
        some ([], [("/p",
          [("r", ⟨[90], ["ops"], "", false, 90, 91, "91.0B", "100.0B"⟩)])]) := by
      norm_num [get_alerting_quotas, checkQuotaRules, checkQuotaRule,
        alertThresholdFold, pyRound2, roundHalfEven, humanize_bytes, humanizeGo,
        pyAbs, fmtOneDecimal, List.filterMap_cons]
      decide
    have hq : NodupKeys [("/p",
        [("r", AlertInfo.mk [90] ["ops"] "" false 90 91 "91.0B" "100.0B")])] := by
      decide
    have hqi : ∀ e ∈ [("/p",
        [("r", AlertInfo.mk [90] ["ops"] "" false 90 91 "91.0B" "100.0B")])],
        NodupKeys e.2 := by decide
    have hlook : alookup2 (process_quotas_with_history
        [("/p", [("r", ⟨[90], ["ops"], "", false, 90, 91, "91.0B", "100.0B"⟩)])]
        []).2 "/p" "r" =
        some ⟨[90], ["ops"], "", false, 90, 91, "91.0B", "100.0B"⟩ := by decide
    obtain ⟨ha, hb, hc⟩ := C3_history_only_active.1
      [("/p", ⟨91, 100, [("r", ⟨[90], ["ops"], "", false⟩)]⟩)] []
      [("/p", [("r", ⟨[90], ["ops"], "", false, 90, 91, "91.0B", "100.0B"⟩)])]
      [] "/p" "r" ⟨[90], ["ops"], "", false, 90, 91, "91.0B", "100.0B"⟩
      hgaq hq hqi hlook
    exact ⟨hgaq, hlook, hb, hc⟩
  · have hnd : NodupKeys [("r", CapRule.mk [90] ["ops"] "")] := by decide
    have hmem : ("r", CapRule.mk [90] ["ops"] "") ∈
        [("r", CapRule.mk [90] ["ops"] "")] := List.mem_cons_self _ _
    have hlook : alookup "r" (cluster_capacity_check_core
        [("r", CapRule.mk [90] ["ops"] "")] 95 []).2 = some 90 := by decide
    have ht := (C3_history_only_active.2.1
      [("r", CapRule.mk [90] ["ops"] "")] 95 [] "r" hnd).2
      (CapRule.mk [90] ["ops"] "") 90 hmem hlook
    exact ⟨hmem, hlook, ht⟩

/-- Counterexample to C3 as stated: a history entry for the capacity rule
"old", which no longer appears in the configuration (no capacity rules at
all), survives the capacity evaluation pass although its alert is not
active. -/
theorem C3_stale_capacity_counterexample :
    cluster_capacity_check_core [] 50 [("old", (90 : ℚ))] = ([], [("old", 90)]) ∧
    hasKey "old" ([] : List (String × CapRule)) = false := by
  exact ⟨by decide, by decide⟩

/-- C4: running any family's evaluation a second time on the history the
first run produced, with unchanged metrics, yields zero notifications. -/
theorem C4_second_run_silent :
    (∀ (aq : AlertQuotas) (hist : HistQ), NodupKeys aq →
      (∀ e ∈ aq, NodupKeys e.2) →
      notifyCount (process_quotas_with_history aq
        (process_quotas_with_history aq hist).2).1 = 0) ∧
    (∀ (rules : List (String × CapRule)) (pct : ℚ) (hist : HistC),
      NodupKeys rules →
      (cluster_capacity_check_core rules pct
        (cluster_capacity_check_core rules pct hist).2).1 = []) ∧
    (∀ (rules : List (String × RepRule)) (errs : List Relationship) (hist : HistR),
      NodupKeys rules →
      (replication_check_core rules errs
        (replication_check_core rules errs hist).2).1 = []) := by
  refine ⟨fun aq hist hq hqi => ?_, fun rules pct hist hnd => ?_,
    fun rules errs hist hnd => ?_⟩
  · apply notifyCount_eq_zero
    have hpre : ∀ e ∈ aq,
        hasKey e.1 (process_quotas_with_history aq hist).2 = true ∧
        ∀ rv ∈ e.2, alookup2 (process_quotas_with_history aq hist).2 e.1 rv.1 =
          some rv.2 := by
      intro e he
      constructor
      · rw [pqwh_hist_hasKey aq hist e.1]
        obtain ⟨p, rules'⟩ := e
        exact hasKey_of_mem he
      · intro rv hv
        rw [pqwh_hist_lookup aq hist hq hqi e.1 rv.1]
        unfold alookup2
        obtain ⟨p, rules'⟩ := e
        rw [alookup_eq_some_of_mem hq he]
        simp only [Option.some_bind]
        obtain ⟨r, v⟩ := rv
        exact alookup_eq_some_of_mem (hqi (p, rules') he) hv
    intro e he
    exact pqwhGo_silent aq [] (process_quotas_with_history aq hist).2 hpre
      (fun e' he' => by simp at he') e he
  · apply cap_core_no_alerts rules hnd pct _
    intro rn ri hmem
    rw [cap_core_entry rules hnd pct hist rn ri hmem]
    exact capSendStep_of_entry ri pct (alookup rn hist)
  · apply rep_core_no_alerts rules hnd errs _
    intro rn ri hmem
    rw [rep_core_entry rules hnd errs hist rn ri hmem]
    exact repSendStep_of_entry ri errs (alookup rn hist)

/-- Witness for C4 on concrete one-rule inputs for all three families. -/
theorem C4_second_run_silent_witness :
    (NodupKeys c2Alert ∧
      notifyCount (process_quotas_with_history c2Alert
        (process_quotas_with_history c2Alert []).2).1 = 0) ∧
    (NodupKeys [("r", CapRule.mk [90] ["ops"] "")] ∧
      (cluster_capacity_check_core [("r", CapRule.mk [90] ["ops"] "")] 95
        (cluster_capacity_check_core [("r", CapRule.mk [90] ["ops"] "")] 95
          []).2).1 = []) ∧
    (NodupKeys [("r", RepRule.mk ["ops"] "")] ∧
      (replication_check_core [("r", RepRule.mk ["ops"] "")]
        [Relationship.mk "s" "p" "t" "q" "rp" "boom"]
        (replication_check_core [("r", RepRule.mk ["ops"] "")]
          [Relationship.mk "s" "p" "t" "q" "rp" "boom"] []).2).1 = []) := by
  refine ⟨⟨by decide, ?_⟩, ⟨by decide, ?_⟩, ⟨by decide, ?_⟩⟩
  · exact C4_second_run_silent.1 c2Alert [] (by decide) (by decide)
  · exact C4_second_run_silent.2.1 [("r", CapRule.mk [90] ["ops"] "")] 95 []
      (by decide)
  · exact C4_second_run_silent.2.2 [("r", RepRule.mk ["ops"] "")]
      [Relationship.mk "s" "p" "t" "q" "rp" "boom"] [] (by decide)

end ClusterEmailAlerts

namespace ClusterEmailAlerts

/-! ### The history persistence format (claim C8)

save_history (lines 127-135) writes json.dumps(history) over the history
file; load_history (lines 118-124) returns the empty three-namespace
history when the file is missing and otherwise json.load of its content,
exiting on invalid JSON (modelled as none).  The JSON value universe and
the dumps/loads pair of the Python json library are modelled executably:
numbers are integers (the integral thresholds the script persists), dumps
uses the default ", " and ": " separators, and string escaping covers the
two characters that are mandatory for losslessness (backslash and double
quote), with other characters written verbatim; the parser additionally
accepts the remaining single-character escapes and surrounding whitespace,
as json.load does. -/

mutual

inductive JVal where
  | null : JVal
  | bool (b : Bool) : JVal
  | num (n : Int) : JVal
  | str (s : String) : JVal
  | arr (vs : JArr) : JVal
  | obj (os : JObj) : JVal

inductive JArr where
  | nil : JArr
  | cons (hd : JVal) (tl : JArr) : JArr

inductive JObj where
  | nil : JObj
  | cons (k : String) (v : JVal) (tl : JObj) : JObj

end

/-- Opening brace character. -/
def lbrace : Char := Char.ofNat 123

/-- Closing brace character. -/
def rbrace : Char := Char.ofNat 125

/-- Decimal digit character for d < 10. -/
def digitChar (d : Nat) : Char := Char.ofNat (48 + d)

/-- Decimal digits of n, most significant first, accumulated onto acc; the
fuel argument makes the recursion structural and n+1 fuel suffices. -/
def natCharsCore : Nat → Nat → List Char → List Char
  | 0, _, acc => acc
  | fuel + 1, n, acc =>
    if n < 10 then digitChar n :: acc
    else natCharsCore fuel (n / 10) (digitChar (n % 10) :: acc)

/-- Decimal digits of a natural number. -/
def natChars (n : Nat) : List Char := natCharsCore (n + 1) n []

/-- Rendering of a JSON integer. -/
def encInt (n : Int) : List Char :=
  if n < 0 then '-' :: natChars n.natAbs else natChars n.natAbs

/-- Escaping of one character inside a JSON string literal. -/
def escChar (c : Char) : List Char :=
  if c = '"' then ['\\', '"']
  else if c = '\\' then ['\\', '\\']
  else [c]

/-- Escaping of a character sequence inside a JSON string literal. -/
def escList : List Char → List Char
  | [] => []
  | c :: cs => escChar c ++ escList cs

/-- Rendering of a JSON string literal. -/
def encStr (s : String) : List Char := '"' :: escList s.data ++ ['"']

mutual

/-- Rendering of a JSON value, as json.dumps produces it with the default
separators. -/
def encV : JVal → List Char
  | .null => "null".data
  | .bool true => "true".data
  | .bool false => "false".data
  | .num n => encInt n
  | .str s => encStr s
  | .arr .nil => ['[', ']']
  | .arr (.cons v vs) => '[' :: (encV v ++ encArrItems vs) ++ [']']
  | .obj .nil => [lbrace, rbrace]
  | .obj (.cons k v os) =>
    lbrace :: (encStr k ++ ':' :: ' ' :: encV v ++ encObjItems os) ++ [rbrace]

/-- Rendering of the second and later array elements. -/
def encArrItems : JArr → List Char
  | .nil => []
  | .cons v vs => ',' :: ' ' :: encV v ++ encArrItems vs

/-- Rendering of the second and later object entries. -/
def encObjItems : JObj → List Char
  | .nil => []
  | .cons k v os => ',' :: ' ' :: encStr k ++ ':' :: ' ' :: encV v ++ encObjItems os

end

mutual

/-- Recursion budget needed to parse an encoded value. -/
def szV : JVal → Nat
  | .null => 1
  | .bool _ => 1
  | .num _ => 1
  | .str _ => 1
  | .arr vs => 1 + szA vs
  | .obj os => 1 + szO os

def szA : JArr → Nat
  | .nil => 0
  | .cons v vs => 1 + szV v + szA vs

def szO : JObj → Nat
  | .nil => 0
  | .cons _ v os => 1 + szV v + szO os

end

end ClusterEmailAlerts

namespace ClusterEmailAlerts

/-- JSON whitespace. -/
def isJsonWs (c : Char) : Bool :=
  c = ' ' || c = '\t' || c = '\n' || c = '\r'

/-- Skip insignificant whitespace. -/
def skipWs (cs : List Char) : List Char := cs.dropWhile isJsonWs

/-- Unescape one escaped character of a JSON string literal. -/
def unescChar (e : Char) : Option Char :=
  if e = '"' then some '"'
  else if e = '\\' then some '\\'
  else if e = '/' then some '/'
  else if e = 'n' then some '\n'
  else if e = 't' then some '\t'
  else if e = 'r' then some '\r'
  else if e = 'b' then some (Char.ofNat 8)
  else if e = 'f' then some (Char.ofNat 12)
  else none

/-- Parse the body of a JSON string literal up to its closing quote. -/
def strBodyGo : List Char → Option (List Char × List Char)
  | [] => none
  | c :: cs =>
    if c = '"' then some ([], cs)
    else if c = '\\' then
      match cs with
      | [] => none
      | e :: cs' =>
        match unescChar e with
        | some d =>
          match strBodyGo cs' with
          | some (sl, rest) => some (d :: sl, rest)
          | none => none
        | none => none
    else
      match strBodyGo cs with
      | some (sl, rest) => some (c :: sl, rest)
      | none => none

/-- Parse a JSON string body into a String. -/
def parseStrBody (cs : List Char) : Option (String × List Char) :=
  match strBodyGo cs with
  | some (sl, rest) => some (String.mk sl, rest)
  | none => none

/-- Numeric value of a digit list. -/
def digitsVal (ds : List Char) : Nat :=
  ds.foldl (fun a c => a * 10 + (c.toNat - 48)) 0

/-- Parse a natural number literal. -/
def parseNat (cs : List Char) : Option (Nat × List Char) :=
  let ds := cs.takeWhile (fun c => c.isDigit)
  if ds.isEmpty then none
  else some (digitsVal ds, cs.dropWhile (fun c => c.isDigit))

mutual

/-- Parse one JSON value; the fuel bounds the nesting of the recursion and
the input length plus one always suffices. -/
def parseVal : Nat → List Char → Option (JVal × List Char)
  | 0, _ => none
  | fuel + 1, cs =>
    match cs with
    | [] => none
    | c :: rest =>
      if c = 'n' then
        match rest with
        | 'u' :: 'l' :: 'l' :: r => some (.null, r)
        | _ => none
      else if c = 't' then
        match rest with
        | 'r' :: 'u' :: 'e' :: r => some (.bool true, r)
        | _ => none
      else if c = 'f' then
        match rest with
        | 'a' :: 'l' :: 's' :: 'e' :: r => some (.bool false, r)
        | _ => none
      else if c = '"' then
        match parseStrBody rest with
        | some (s, r) => some (.str s, r)
        | none => none
      else if c = '[' then
        match rest with
        | [] => none
        | d :: r' =>
          if d = ']' then some (.arr .nil, r')
          else
            match parseArrItems fuel (d :: r') with
            | some (vs, r) => some (.arr vs, r)
            | none => none
      else if c = lbrace then
        match rest with
        | [] => none
        | d :: r' =>
          if d = rbrace then some (.obj .nil, r')
          else
            match parseObjItems fuel (d :: r') with
            | some (os, r) => some (.obj os, r)
            | none => none
      else if c = '-' then
        match parseNat rest with
        | some (n, r) => some (.num (-(n : Int)), r)
        | none => none
      else if c.isDigit then
        match parseNat (c :: rest) with
        | some (n, r) => some (.num (n : Int), r)
        | none => none
      else none

/-- Parse the elements of a non-empty JSON array up to and including the
closing bracket. -/
def parseArrItems : Nat → List Char → Option (JArr × List Char)
  | 0, _ => none
  | fuel + 1, cs =>
    match parseVal fuel cs with
    | some (v, rest) =>
      match rest with
      | [] => none
      | c :: r =>
        if c = ']' then some (.cons v .nil, r)
        else if c = ',' then
          match parseArrItems fuel (skipWs r) with
          | some (vs, r2) => some (.cons v vs, r2)
          | none => none
        else none
    | none => none

/-- Parse the entries of a non-empty JSON object up to and including the
closing brace. -/
def parseObjItems : Nat → List Char → Option (JObj × List Char)
  | 0, _ => none
  | fuel + 1, cs =>
    match cs with
    | '"' :: rest =>
      match parseStrBody rest with
      | some (k, r1) =>
        match r1 with
        | ':' :: r2 =>
          match parseVal fuel (skipWs r2) with
          | some (v, r3) =>
            match r3 with
            | [] => none
            | c :: r4 =>
              if c = rbrace then some (.cons k v .nil, r4)
              else if c = ',' then
                match parseObjItems fuel (skipWs r4) with
                | some (os, r5) => some (.cons k v os, r5)
                | none => none
              else none
          | none => none
        | _ => none
      | none => none
    | _ => none

end

/-- Rendering of a JSON value as a string; models json.dumps. -/
def dumps (v : JVal) : String := String.mk (encV v)

/-- Parsing of a string as one JSON document; models json.loads and hence
json.load of a file's content. -/
def jsonLoads (s : String) : Option JVal :=
  match parseVal (s.data.length + 1) s.data with
  | some (v, rest) => if (skipWs rest).isEmpty then some v else none
  | none => none

/-- The empty three-namespace history that load_history returns when no
history file exists (line 124). -/
def defaultHistory : JVal :=
  .obj (.cons "quotas" (.obj .nil)
    (.cons "capacity" (.obj .nil)
      (.cons "replication" (.obj .nil) .nil)))

/-- Embedding of save_history (lines 127-135): full overwrite of the
history file with json.dumps(history), over a file system modelled as a
name-to-content dictionary. -/
def save_history (fs : List (String × String)) (history_file : String)
    (history : JVal) : List (String × String) :=
  dset history_file (dumps history) fs

/-- Embedding of load_history (lines 118-124): the default empty history
when the file is missing, otherwise the parsed content; none models the
sys.exit on invalid JSON. -/
def load_history (fs : List (String × String)) (history_file : String) :
    Option JVal :=
  match alookup history_file fs with
  | some content => jsonLoads content
  | none => some defaultHistory

/-- The three-namespace shape of the persisted history: exactly the
top-level fields quotas, capacity and replication, each an object. -/
def isHistoryShape (v : JVal) : Bool :=
  match v with
  | .obj (.cons k1 (.obj _) (.cons k2 (.obj _) (.cons k3 (.obj _) .nil))) =>
    decide (k1 = "quotas") && decide (k2 = "capacity") &&
      decide (k3 = "replication")
  | _ => false

end ClusterEmailAlerts

namespace ClusterEmailAlerts

theorem digitChar_isDigit {d : Nat} (h : d < 10) : (digitChar d).isDigit = true := by
  unfold digitChar
  interval_cases d <;> decide

theorem digitChar_toNat {d : Nat} (h : d < 10) : (digitChar d).toNat = 48 + d := by
  unfold digitChar
  interval_cases d <;> decide

theorem natCharsCore_spec :
    ∀ (fuel n : Nat) (acc : List Char), n < fuel →
    ∃ ds, natCharsCore fuel n acc = ds ++ acc ∧ ds ≠ [] ∧
      (∀ c ∈ ds, c.isDigit = true) ∧
      ∀ a : Nat, ds.foldl (fun a c => a * 10 + (c.toNat - 48)) a =
        a * 10 ^ ds.length + n := by
  intro fuel
  induction fuel with
  | zero => intro n acc h; omega
  | succ fuel ih =>
    intro n acc h
    unfold natCharsCore
    by_cases hn : n < 10
    · rw [if_pos hn]
      refine ⟨[digitChar n], rfl, by simp, ?_, ?_⟩
      · intro c hc
        rw [List.mem_singleton.mp hc]
        exact digitChar_isDigit hn
      · intro a
        simp only [List.foldl_cons, List.foldl_nil, List.length_singleton,
          pow_one]
        rw [digitChar_toNat hn]
        omega
    · rw [if_neg hn]
      have hk1 : 1 ≤ n / 10 := by
        apply Nat.one_le_div_iff (by omega) |>.mpr
        omega
      have hklt : n / 10 < n := Nat.div_lt_self (by omega) (by omega)
      have hkf : n / 10 < fuel := by omega
      obtain ⟨ds', heq, hne, hdig, hval⟩ :=
        ih (n / 10) (digitChar (n % 10) :: acc) hkf
      have hmod : n % 10 < 10 := Nat.mod_lt _ (by omega)
      refine ⟨ds' ++ [digitChar (n % 10)], by rw [heq, List.append_assoc]; rfl,
        by simp, ?_, ?_⟩
      · intro c hc
        rcases List.mem_append.mp hc with hh | hh
        · exact hdig c hh
        · rw [List.mem_singleton.mp hh]
          exact digitChar_isDigit hmod
      · intro a
        rw [List.foldl_append]
        simp only [List.foldl_cons, List.foldl_nil, List.length_append,
          List.length_singleton]
        rw [hval a, digitChar_toNat hmod]
        have hdm : 10 * (n / 10) + n % 10 = n := Nat.div_add_mod n 10
        have hpow : 10 ^ (ds'.length + 1) = 10 ^ ds'.length * 10 := pow_succ 10 _
        have hring : (a * 10 ^ ds'.length + n / 10) * 10 + (48 + n % 10 - 48) =
            a * (10 ^ ds'.length * 10) + (10 * (n / 10) + n % 10) := by
          have h48 : 48 + n % 10 - 48 = n % 10 := by omega
          rw [h48]
          ring
        rw [hring, hdm, hpow]

theorem natChars_spec (n : Nat) :
    ∃ ds, natChars n = ds ∧ ds ≠ [] ∧ (∀ c ∈ ds, c.isDigit = true) ∧
      digitsVal ds = n := by
  obtain ⟨ds, heq, hne, hdig, hval⟩ := natCharsCore_spec (n + 1) n [] (by omega)
  refine ⟨ds, by rw [natChars, heq, List.append_nil], hne, hdig, ?_⟩
  have := hval 0
  unfold digitsVal
  omega

theorem takeWhile_all_append {p : Char → Bool} :
    ∀ (ds rest : List Char), (∀ c ∈ ds, p c = true) →
    (rest = [] ∨ ∃ c r, rest = c :: r ∧ p c = false) →
    (ds ++ rest).takeWhile p = ds ∧ (ds ++ rest).dropWhile p = rest := by
  intro ds
  induction ds with
  | nil =>
    intro rest _ hrest
    rcases hrest with hh | ⟨c, r, hh, hc⟩
    · subst hh; exact ⟨rfl, rfl⟩
    · subst hh
      constructor
      · simp [List.takeWhile_cons, hc]
      · simp [List.dropWhile_cons, hc]
  | cons d ds ih =>
    intro rest hall hrest
    have hd : p d = true := hall d (List.mem_cons_self _ _)
    obtain ⟨h1, h2⟩ := ih rest (fun c hc => hall c (List.mem_cons_of_mem _ hc)) hrest
    constructor
    · simp [List.takeWhile_cons, hd, h1]
    · simp [List.dropWhile_cons, hd, h2]

/-- Boundary condition after a parsed number: the remaining input does not
begin with a digit.  Every composition site of the encoder satisfies it. -/
def numBoundary (rest : List Char) : Prop :=
  match rest with
  | [] => True
  | c :: _ => c.isDigit = false

theorem parseNat_round_trip (n : Nat) (rest : List Char) (hb : numBoundary rest) :
    parseNat (natChars n ++ rest) = some (n, rest) := by
  obtain ⟨ds, heq, hne, hdig, hval⟩ := natChars_spec n
  rw [heq]
  have hrest : rest = [] ∨ ∃ c r, rest = c :: r ∧ c.isDigit = false := by
    cases rest with
    | nil => exact Or.inl rfl
    | cons c r => exact Or.inr ⟨c, r, rfl, hb⟩
  obtain ⟨h1, h2⟩ := takeWhile_all_append ds rest hdig hrest
  unfold parseNat
  simp only [h1, h2]
  rw [if_neg (by simp [hne]), hval]

theorem strBodyGo_round_trip :
    ∀ (l rest : List Char),
    strBodyGo (escList l ++ '"' :: rest) = some (l, rest) := by
  intro l
  induction l with
  | nil =>
    intro rest
    show strBodyGo ('"' :: rest) = some ([], rest)
    unfold strBodyGo
    rw [if_pos rfl]
  | cons c cs ih =>
    intro rest
    unfold escList escChar
    by_cases hq : c = '"'
    · rw [if_pos hq]
      subst hq
      simp only [List.cons_append, List.append_assoc, List.nil_append]
      unfold strBodyGo
      rw [if_neg (by decide), if_pos rfl]
      dsimp only
      have hu : unescChar '"' = some '"' := rfl
      rw [hu]
      dsimp only
      rw [ih rest]
    · rw [if_neg hq]
      by_cases hbs : c = '\\'
      · rw [if_pos hbs]
        subst hbs
        simp only [List.cons_append, List.append_assoc, List.nil_append]
        unfold strBodyGo
        rw [if_neg (by decide), if_pos rfl]
        dsimp only
        have hu : unescChar '\\' = some '\\' := rfl
        rw [hu]
        dsimp only
        rw [ih rest]
      · rw [if_neg hbs]
        simp only [List.cons_append, List.nil_append]
        unfold strBodyGo
        rw [if_neg hq, if_neg hbs]
        rw [ih rest]

theorem parseStrBody_round_trip (s : String) (rest : List Char) :
    parseStrBody (escList s.data ++ '"' :: rest) = some (s, rest) := by
  unfold parseStrBody
  rw [strBodyGo_round_trip s.data rest]

end ClusterEmailAlerts

namespace ClusterEmailAlerts

theorem digit_not_special {c : Char} (h : c.isDigit = true) :
    c ≠ 'n' ∧ c ≠ 't' ∧ c ≠ 'f' ∧ c ≠ '"' ∧ c ≠ '[' ∧ c ≠ lbrace ∧ c ≠ '-' := by
  refine ⟨?_, ?_, ?_, ?_, ?_, ?_, ?_⟩ <;>
    (intro he; rw [he] at h; exact absurd h (by decide))

theorem digit_not_ws {c : Char} (h : c.isDigit = true) : isJsonWs c = false := by
  unfold isJsonWs
  have h1 : c ≠ ' ' := by intro he; rw [he] at h; exact absurd h (by decide)
  have h2 : c ≠ '\t' := by intro he; rw [he] at h; exact absurd h (by decide)
  have h3 : c ≠ '\n' := by intro he; rw [he] at h; exact absurd h (by decide)
  have h4 : c ≠ '\r' := by intro he; rw [he] at h; exact absurd h (by decide)
  simp [h1, h2, h3, h4]

theorem digit_not_brackets {c : Char} (h : c.isDigit = true) :
    c ≠ ']' ∧ c ≠ rbrace := by
  constructor <;> (intro he; rw [he] at h; exact absurd h (by decide))

theorem skipWs_cons_not_ws {c : Char} (h : isJsonWs c = false) (l : List Char) :
    skipWs (c :: l) = c :: l := by
  unfold skipWs
  simp [List.dropWhile_cons, h]

theorem skipWs_space (l : List Char) : skipWs (' ' :: l) = skipWs l := by
  unfold skipWs
  rw [List.dropWhile_cons, if_pos (show isJsonWs ' ' = true by decide)]

theorem natChars_ne_nil (n : Nat) : natChars n ≠ [] := by
  obtain ⟨ds, heq, hne, _, _⟩ := natChars_spec n
  rw [heq]
  exact hne

/-- Head of an encoded value: a character that is not whitespace and not a
closing bracket or brace. -/
theorem encV_head (v : JVal) : ∃ c cs, encV v = c :: cs ∧ isJsonWs c = false ∧
    c ≠ ']' ∧ c ≠ rbrace := by
  cases v with
  | null => exact ⟨'n', ['u', 'l', 'l'], rfl, by decide, by decide, by decide⟩
  | bool b =>
    cases b with
    | true => exact ⟨'t', ['r', 'u', 'e'], rfl, by decide, by decide, by decide⟩
    | false => exact ⟨'f', ['a', 'l', 's', 'e'], rfl, by decide, by decide, by decide⟩
  | num n =>
    show ∃ c cs, encInt n = c :: cs ∧ _
    unfold encInt
    by_cases hn : n < 0
    · rw [if_pos hn]
      exact ⟨'-', natChars n.natAbs, rfl, by decide, by decide, by decide⟩
    · rw [if_neg hn]
      obtain ⟨ds, heq, hne, hdig, _⟩ := natChars_spec n.natAbs
      cases hds : ds with
      | nil => rw [hds] at hne; exact absurd rfl hne
      | cons d ds' =>
        rw [hds] at heq hdig
        have hd : d.isDigit = true := hdig d (List.mem_cons_self _ _)
        exact ⟨d, ds', heq, digit_not_ws hd, (digit_not_brackets hd).1,
          (digit_not_brackets hd).2⟩
  | str s => exact ⟨'"', escList s.data ++ ['"'], rfl, by decide, by decide, by decide⟩
  | arr vs =>
    cases vs with
    | nil => exact ⟨'[', [']'], rfl, by decide, by decide, by decide⟩
    | cons v' vs' =>
      exact ⟨'[', (encV v' ++ encArrItems vs') ++ [']'], rfl, by decide,
        by decide, by decide⟩
  | obj os =>
    cases os with
    | nil => exact ⟨lbrace, [rbrace], rfl, by decide, by decide, by decide⟩
    | cons k v' os' =>
      exact ⟨lbrace, (encStr k ++ ':' :: ' ' :: encV v' ++ encObjItems os') ++
        [rbrace], rfl, by decide, by decide, by decide⟩

end ClusterEmailAlerts

namespace ClusterEmailAlerts

mutual

theorem parseVal_round_trip (v : JVal) (fuel : Nat) (rest : List Char)
    (hsz : szV v ≤ fuel) (hb : numBoundary rest) :
    parseVal fuel (encV v ++ rest) = some (v, rest) := by
  obtain ⟨f, rfl⟩ : ∃ f, fuel = f + 1 := by
    cases fuel with
    | zero =>
      exact absurd hsz (by cases v <;> simp [szV])
    | succ f => exact ⟨f, rfl⟩
  cases v with
  | null => rfl
  | bool b => cases b <;> rfl
  | num n =>
    show parseVal (f + 1) (encInt n ++ rest) = _
    unfold encInt
    by_cases hn : n < 0
    · rw [if_pos hn]
      have hstep : parseVal (f + 1) (('-' :: natChars n.natAbs) ++ rest) =
          match parseNat (natChars n.natAbs ++ rest) with
          | some (m, r) => some (.num (-(m : Int)), r)
          | none => none := rfl
      rw [hstep, parseNat_round_trip n.natAbs rest hb]
      dsimp only
      have hval : -((n.natAbs : Int)) = n := by omega
      rw [hval]
    · rw [if_neg hn]
      obtain ⟨ds, heq, hne, hdig, _⟩ := natChars_spec n.natAbs
      cases hds : ds with
      | nil => rw [hds] at hne; exact absurd rfl hne
      | cons d ds' =>
        rw [hds] at heq hdig
        have hd : d.isDigit = true := hdig d (List.mem_cons_self _ _)
        obtain ⟨n1, n2, n3, n4, n5, n6, n7⟩ := digit_not_special hd
        rw [heq]
        show parseVal (f + 1) (d :: (ds' ++ rest)) = _
        have hstep : parseVal (f + 1) (d :: (ds' ++ rest)) =
            (if d = 'n' then
              match ds' ++ rest with
              | 'u' :: 'l' :: 'l' :: r => some (.null, r)
              | _ => none
            else if d = 't' then
              match ds' ++ rest with
              | 'r' :: 'u' :: 'e' :: r => some (JVal.bool true, r)
              | _ => none
            else if d = 'f' then
              match ds' ++ rest with
              | 'a' :: 'l' :: 's' :: 'e' :: r => some (JVal.bool false, r)
              | _ => none
            else if d = '"' then
              match parseStrBody (ds' ++ rest) with
              | some (s, r) => some (JVal.str s, r)
              | none => none
            else if d = '[' then
              match ds' ++ rest with
              | [] => none
              | e :: r' =>
                if e = ']' then some (JVal.arr .nil, r')
                else
                  match parseArrItems f (e :: r') with
                  | some (vs, r) => some (JVal.arr vs, r)
                  | none => none
            else if d = lbrace then
              match ds' ++ rest with
              | [] => none
              | e :: r' =>
                if e = rbrace then some (JVal.obj .nil, r')
                else
                  match parseObjItems f (e :: r') with
                  | some (os, r) => some (JVal.obj os, r)
                  | none => none
            else if d = '-' then
              match parseNat (ds' ++ rest) with
              | some (m, r) => some (JVal.num (-(m : Int)), r)
              | none => none
            else if d.isDigit then
              match parseNat (d :: (ds' ++ rest)) with
              | some (m, r) => some (JVal.num (m : Int), r)
              | none => none
            else none) := rfl
        rw [hstep, if_neg n1, if_neg n2, if_neg n3, if_neg n4, if_neg n5,
          if_neg n6, if_neg n7, if_pos hd]
        have harg : d :: (ds' ++ rest) = natChars n.natAbs ++ rest := by
          rw [heq]
          rfl
        rw [harg, parseNat_round_trip n.natAbs rest hb]
        dsimp only
        have hval : ((n.natAbs : Int)) = n := by omega
        rw [hval]
  | str s =>
    have hshape : encStr s ++ rest = '"' :: (escList s.data ++ ('"' :: rest)) := by
      unfold encStr
      simp [List.append_assoc]
    show parseVal (f + 1) (encStr s ++ rest) = _
    rw [hshape]
    have hstep : parseVal (f + 1) ('"' :: (escList s.data ++ ('"' :: rest))) =
        match parseStrBody (escList s.data ++ ('"' :: rest)) with
        | some (sv, r) => some (.str sv, r)
        | none => none := rfl
    rw [hstep, parseStrBody_round_trip s rest]
  | arr vs =>
    cases vs with
    | nil => rfl
    | cons v' vs' =>
      have hsz' : 1 + szV v' + szA vs' ≤ f := by
        have : szV (.arr (.cons v' vs')) = 2 + szV v' + szA vs' := by
          simp [szV, szA]
          omega
        omega
      obtain ⟨c0, cs0, hc0, hws0, hrb0, hbr0⟩ := encV_head v'
      have hshape : encV (.arr (.cons v' vs')) ++ rest =
          '[' :: (c0 :: (cs0 ++ (encArrItems vs' ++ (']' :: rest)))) := by
        show ('[' :: (encV v' ++ encArrItems vs') ++ [']']) ++ rest = _
        rw [hc0]
        simp [List.append_assoc]
      rw [hshape]
      have hstep : parseVal (f + 1)
          ('[' :: (c0 :: (cs0 ++ (encArrItems vs' ++ (']' :: rest))))) =
          if c0 = ']' then some (.arr .nil, cs0 ++ (encArrItems vs' ++ (']' :: rest)))
          else
            match parseArrItems f (c0 :: (cs0 ++ (encArrItems vs' ++ (']' :: rest)))) with
            | some (avs, r) => some (.arr avs, r)
            | none => none := rfl
      rw [hstep, if_neg hrb0]
      have harg : c0 :: (cs0 ++ (encArrItems vs' ++ (']' :: rest))) =
          encV v' ++ encArrItems vs' ++ ']' :: rest := by
        rw [hc0]
        simp [List.append_assoc]
      rw [harg, parseArrItems_round_trip v' vs' f rest hsz']
  | obj os =>
    cases os with
    | nil => rfl
    | cons k v' os' =>
      have hsz' : 1 + szV v' + szO os' ≤ f := by
        have : szV (.obj (.cons k v' os')) = 2 + szV v' + szO os' := by
          simp [szV, szO]
          omega
        omega
      have hshape : encV (.obj (.cons k v' os')) ++ rest =
          lbrace :: ('"' :: (escList k.data ++ ('"' :: (':' :: ' ' :: encV v' ++
            (encObjItems os' ++ (rbrace :: rest)))))) := by
        show (lbrace :: (encStr k ++ ':' :: ' ' :: encV v' ++ encObjItems os') ++
          [rbrace]) ++ rest = _
        unfold encStr
        simp [List.append_assoc]
      rw [hshape]
      have hstep : parseVal (f + 1)
          (lbrace :: ('"' :: (escList k.data ++ ('"' :: (':' :: ' ' :: encV v' ++
            (encObjItems os' ++ (rbrace :: rest))))))) =
          if ('"' : Char) = rbrace then
            some (.obj .nil, escList k.data ++ ('"' :: (':' :: ' ' :: encV v' ++
              (encObjItems os' ++ (rbrace :: rest)))))
          else
            match parseObjItems f ('"' :: (escList k.data ++ ('"' :: (':' :: ' ' ::
                encV v' ++ (encObjItems os' ++ (rbrace :: rest)))))) with
            | some (oos, r) => some (.obj oos, r)
            | none => none := rfl
      rw [hstep, if_neg (by decide : ('"' : Char) ≠ rbrace)]
      have harg : ('"' :: (escList k.data ++ ('"' :: (':' :: ' ' :: encV v' ++
          (encObjItems os' ++ (rbrace :: rest)))))) =
          encStr k ++ ':' :: ' ' :: encV v' ++ encObjItems os' ++ rbrace :: rest := by
        unfold encStr
        simp [List.append_assoc]
      rw [harg, parseObjItems_round_trip k v' os' f rest hsz']
termination_by fuel
decreasing_by
  all_goals simp_wf
  all_goals omega

theorem parseArrItems_round_trip (v : JVal) (vs : JArr) (fuel : Nat)
    (rest : List Char) (hsz : 1 + szV v + szA vs ≤ fuel) :
    parseArrItems fuel (encV v ++ encArrItems vs ++ ']' :: rest) =
      some (.cons v vs, rest) := by
  obtain ⟨f, rfl⟩ : ∃ f, fuel = f + 1 := by
    cases fuel with
    | zero => omega
    | succ f => exact ⟨f, rfl⟩
  have hszv : szV v ≤ f := by omega
  cases vs with
  | nil =>
    have hshape : encV v ++ encArrItems .nil ++ ']' :: rest =
        encV v ++ (']' :: rest) := by
      show encV v ++ [] ++ ']' :: rest = _
      simp
    rw [hshape]
    have hstep : parseArrItems (f + 1) (encV v ++ (']' :: rest)) =
        match parseVal f (encV v ++ (']' :: rest)) with
        | some (w, r2) =>
          match r2 with
          | [] => none
          | c :: r =>
            if c = ']' then some (.cons w .nil, r)
            else if c = ',' then
              match parseArrItems f (skipWs r) with
              | some (ws, r3) => some (.cons w ws, r3)
              | none => none
            else none
        | none => none := rfl
    rw [hstep, parseVal_round_trip v f (']' :: rest) hszv (by
      show (']').isDigit = false
      decide)]
    dsimp only
    rw [if_pos rfl]
  | cons v2 vs2 =>
    have hsz2 : 1 + szV v2 + szA vs2 ≤ f := by
      have : szA (.cons v2 vs2) = 1 + szV v2 + szA vs2 := by simp [szA]
      omega
    obtain ⟨c2, cs2, hc2, hws2, _, _⟩ := encV_head v2
    have hshape : encV v ++ encArrItems (.cons v2 vs2) ++ ']' :: rest =
        encV v ++ (',' :: ' ' :: (encV v2 ++ (encArrItems vs2 ++ (']' :: rest)))) := by
      show encV v ++ (',' :: ' ' :: encV v2 ++ encArrItems vs2) ++ ']' :: rest = _
      simp [List.append_assoc]
    rw [hshape]
    have hstep : parseArrItems (f + 1)
        (encV v ++ (',' :: ' ' :: (encV v2 ++ (encArrItems vs2 ++ (']' :: rest))))) =
        match parseVal f
          (encV v ++ (',' :: ' ' :: (encV v2 ++ (encArrItems vs2 ++ (']' :: rest))))) with
        | some (w, r2) =>
          match r2 with
          | [] => none
          | c :: r =>
            if c = ']' then some (.cons w .nil, r)
            else if c = ',' then
              match parseArrItems f (skipWs r) with
              | some (ws, r3) => some (.cons w ws, r3)
              | none => none
            else none
        | none => none := rfl
    rw [hstep, parseVal_round_trip v f _ hszv (by
      show (',').isDigit = false
      decide)]
    dsimp only
    rw [if_neg (by decide : (',' : Char) ≠ ']'), if_pos rfl]
    rw [skipWs_space, hc2, List.cons_append, skipWs_cons_not_ws hws2,
      ← List.cons_append, ← hc2]
    have harg : encV v2 ++ (encArrItems vs2 ++ (']' :: rest)) =
        encV v2 ++ encArrItems vs2 ++ ']' :: rest := by
      simp [List.append_assoc]
    rw [harg, parseArrItems_round_trip v2 vs2 f rest hsz2]
termination_by fuel
decreasing_by
  all_goals simp_wf
  all_goals omega

theorem parseObjItems_round_trip (k : String) (v : JVal) (os : JObj) (fuel : Nat)
    (rest : List Char) (hsz : 1 + szV v + szO os ≤ fuel) :
    parseObjItems fuel
      (encStr k ++ ':' :: ' ' :: encV v ++ encObjItems os ++ rbrace :: rest) =
      some (.cons k v os, rest) := by
  obtain ⟨f, rfl⟩ : ∃ f, fuel = f + 1 := by
    cases fuel with
    | zero => omega
    | succ f => exact ⟨f, rfl⟩
  have hszv : szV v ≤ f := by omega
  have hshape : encStr k ++ ':' :: ' ' :: encV v ++ encObjItems os ++ rbrace :: rest =
      '"' :: (escList k.data ++ ('"' :: (':' :: (' ' :: (encV v ++
        (encObjItems os ++ (rbrace :: rest))))))) := by
    unfold encStr
    simp [List.append_assoc]
  rw [hshape]
  have hstep : parseObjItems (f + 1)
      ('"' :: (escList k.data ++ ('"' :: (':' :: (' ' :: (encV v ++
        (encObjItems os ++ (rbrace :: rest)))))))) =
      match parseStrBody (escList k.data ++ ('"' :: (':' :: (' ' :: (encV v ++
          (encObjItems os ++ (rbrace :: rest))))))) with
      | some (kk, r1) =>
        match r1 with
        | ':' :: r2 =>
          match parseVal f (skipWs r2) with
          | some (w, r3) =>
            match r3 with
            | [] => none
            | c :: r4 =>
              if c = rbrace then some (.cons kk w .nil, r4)
              else if c = ',' then
                match parseObjItems f (skipWs r4) with
                | some (oos, r5) => some (.cons kk w oos, r5)
                | none => none
              else none
          | none => none
        | _ => none
      | none => none := rfl
  rw [hstep, parseStrBody_round_trip k (':' :: (' ' :: (encV v ++
    (encObjItems os ++ (rbrace :: rest)))))]
  show (match parseVal f (skipWs (' ' :: (encV v ++
      (encObjItems os ++ (rbrace :: rest))))) with
    | some (w, r3) =>
      match r3 with
      | [] => none
      | c :: r4 =>
        if c = rbrace then some (JObj.cons k w JObj.nil, r4)
        else if c = ',' then
          match parseObjItems f (skipWs r4) with
          | some (oos, r5) => some (JObj.cons k w oos, r5)
          | none => none
        else none
    | none => none) = some (JObj.cons k v os, rest)
  rw [skipWs_space]
  obtain ⟨c1, cs1, hc1, hws1, _, _⟩ := encV_head v
  rw [hc1, List.cons_append, skipWs_cons_not_ws hws1, ← List.cons_append, ← hc1]
  cases os with
  | nil =>
    have hitems : encObjItems JObj.nil ++ (rbrace :: rest) = rbrace :: rest := by
      show ([] : List Char) ++ _ = _
      simp
    rw [hitems, parseVal_round_trip v f (rbrace :: rest) hszv (by
      show rbrace.isDigit = false
      decide)]
    dsimp only
    rw [if_pos rfl]
  | cons k2 v2 os2 =>
    have hsz2 : 1 + szV v2 + szO os2 ≤ f := by
      have : szO (.cons k2 v2 os2) = 1 + szV v2 + szO os2 := by simp [szO]
      omega
    have hitems : encObjItems (.cons k2 v2 os2) ++ (rbrace :: rest) =
        ',' :: (' ' :: (encStr k2 ++ (':' :: ' ' :: encV v2 ++
          (encObjItems os2 ++ (rbrace :: rest))))) := by
      show (',' :: ' ' :: encStr k2 ++ ':' :: ' ' :: encV v2 ++ encObjItems os2) ++
        (rbrace :: rest) = _
      simp [List.append_assoc]
    rw [hitems, parseVal_round_trip v f _ hszv (by
      show (',').isDigit = false
      decide)]
    dsimp only
    rw [if_neg (by decide : (',' : Char) ≠ rbrace), if_pos rfl]
    rw [skipWs_space]
    have hk2 : encStr k2 = '"' :: (escList k2.data ++ ['"']) := rfl
    rw [hk2, List.cons_append, skipWs_cons_not_ws (by decide : isJsonWs '"' = false),
      ← List.cons_append, ← hk2]
    have harg : encStr k2 ++ (':' :: ' ' :: encV v2 ++
        (encObjItems os2 ++ (rbrace :: rest))) =
        encStr k2 ++ ':' :: ' ' :: encV v2 ++ encObjItems os2 ++ rbrace :: rest := by
      simp [List.append_assoc]
    rw [harg, parseObjItems_round_trip k2 v2 os2 f rest hsz2]
termination_by fuel
decreasing_by
  all_goals simp_wf
  all_goals omega

end

end ClusterEmailAlerts

namespace ClusterEmailAlerts

mutual

theorem szV_le_encV (v : JVal) : szV v ≤ (encV v).length := by
  cases v with
  | null => decide
  | bool b => cases b <;> decide
  | num n =>
    show 1 ≤ (encInt n).length
    unfold encInt
    by_cases hn : n < 0
    · rw [if_pos hn]
      simp
    · rw [if_neg hn]
      cases h : natChars n.natAbs with
      | nil => exact absurd h (natChars_ne_nil n.natAbs)
      | cons a l => simp
  | str s =>
    show 1 ≤ (encStr s).length
    unfold encStr
    simp
  | arr vs =>
    cases vs with
    | nil => decide
    | cons v' vs' =>
      have h1 := szV_le_encV v'
      have h2 := szA_le_encArrItems vs'
      simp only [szV, szA, encV, List.length_append, List.length_cons]
      omega
  | obj os =>
    cases os with
    | nil => decide
    | cons k v' os' =>
      have h1 := szV_le_encV v'
      have h2 := szO_le_encObjItems os'
      simp only [szV, szO, encV, List.length_append, List.length_cons]
      omega

theorem szA_le_encArrItems (vs : JArr) : szA vs ≤ (encArrItems vs).length := by
  cases vs with
  | nil => decide
  | cons v' vs' =>
    have h1 := szV_le_encV v'
    have h2 := szA_le_encArrItems vs'
    simp only [szA, encArrItems, List.length_append, List.length_cons]
    omega

theorem szO_le_encObjItems (os : JObj) : szO os ≤ (encObjItems os).length := by
  cases os with
  | nil => decide
  | cons k v' os' =>
    have h1 := szV_le_encV v'
    have h2 := szO_le_encObjItems os'
    simp only [szO, encObjItems, List.length_append, List.length_cons]
    omega

end

/-- json.loads inverts json.dumps on every representable value. -/
theorem loads_dumps (v : JVal) : jsonLoads (dumps v) = some v := by
  show (match parseVal ((encV v).length + 1) (encV v) with
    | some (w, rest) => if (skipWs rest).isEmpty then some w else none
    | none => none) = some v
  have h : parseVal ((encV v).length + 1) (encV v) = some (v, []) := by
    have hrt := parseVal_round_trip v ((encV v).length + 1) []
      (le_trans (szV_le_encV v) (by omega)) trivial
    rw [List.append_nil] at hrt
    exact hrt
  rw [h]
  rfl

end ClusterEmailAlerts

namespace ClusterEmailAlerts

/-- C8: for every history value in the three-namespace persistence format,
save_history followed by load_history on the same file yields exactly the
saved history value. -/
theorem C8_history_round_trip (fs : List (String × String))
    (history_file : String) (history : JVal)
    (hshape : isHistoryShape history = true) :
    load_history (save_history fs history_file history) history_file =
      some history := by
  unfold load_history save_history
  rw [alookup_dset_self]
  exact loads_dumps history

/-- C8 witness: the round trip at a concrete non-trivial history. -/
theorem C8_history_round_trip_witness :
    isHistoryShape (JVal.obj (.cons "quotas"
        (.obj (.cons "/eng" (.obj (.cons "rule\\1"
          (.obj (.cons "alert_threshold" (.num 90) .nil)) .nil)) .nil))
        (.cons "capacity" (.obj (.cons "cap" (.num (-12)) .nil))
          (.cons "replication" (.obj .nil) .nil)))) = true ∧
      load_history (save_history [] "history.json"
          (JVal.obj (.cons "quotas"
            (.obj (.cons "/eng" (.obj (.cons "rule\\1"
              (.obj (.cons "alert_threshold" (.num 90) .nil)) .nil)) .nil))
            (.cons "capacity" (.obj (.cons "cap" (.num (-12)) .nil))
              (.cons "replication" (.obj .nil) .nil))))) "history.json" =
        some (JVal.obj (.cons "quotas"
          (.obj (.cons "/eng" (.obj (.cons "rule\\1"
            (.obj (.cons "alert_threshold" (.num 90) .nil)) .nil)) .nil))
          (.cons "capacity" (.obj (.cons "cap" (.num (-12)) .nil))
            (.cons "replication" (.obj .nil) .nil)))) :=
  ⟨by decide, C8_history_round_trip [] "history.json" _ (by decide)⟩

end ClusterEmailAlerts
